import Mathlib

/-!
Verification development for the rayuela weighted-automata / weighted-grammar
library (src/rayuela).  The Python source is shallowly embedded: Python dicts
become insertion-ordered association lists, Python classes become structures,
fallible operations return `Except Err`, and the handful of base modules that
are not part of the sources (semiring.py, misc.py, datastructures.py, cfg.py,
treesum.py) are modelled from the specification, each marked
`Modelled from the spec:` in its doc comment.
-/

set_option autoImplicit false

namespace Rayuela

/-- Error kinds surfaced by the embedded operations.
  * `assertFail`      — a Python `assert` (precondition violation) fails;
  * `notImpl`         — `raise NotImplementedError`;
  * `attrError`       — Python `AttributeError` (missing attribute lookup);
  * `keyError`        — Python `KeyError` on a non-default dict;
  * `negCycle`        — Bellman-Ford's negative-cycle failure (the source
                        raises `AttributeError("Graph contains a negative-weight cycle")`);
  * `starUndef`       — `star` invoked on a non-closed element (spec §7.3);
  * `invUndef`        — `~` invoked on an element without multiplicative inverse;
  * `fuelOut`         — artefact of the embedding: a fueled loop ran out of fuel
                        (never hit at the fuel bounds used by the theorems). -/
inductive Err : Type where
  | assertFail | notImpl | attrError | keyError | negCycle | starUndef | invUndef | fuelOut
deriving DecidableEq

/-- A Python `dict`: association list with insertion-ordered, duplicate-free keys. -/
abbrev Dict (κ ν : Type) : Type := List (κ × ν)

section DictOps
variable {κ ν : Type} [DecidableEq κ]

/-- `d.get(k)` as an option (first matching key). -/
def dlook : Dict κ ν → κ → Option ν
  | [], _ => none
  | (a, b) :: t, k => if a = k then some b else dlook t k

/-- `d.get(k, dflt)`. -/
def dget (d : Dict κ ν) (k : κ) (dflt : ν) : ν := (dlook d k).getD dflt

/-- `k in d`. -/
def dhas (d : Dict κ ν) (k : κ) : Bool := (dlook d k).isSome

/-- `d[k] = v`: update in place (keeping the key's insertion position, as a
Python dict does) or append a fresh key at the end. -/
def dset : Dict κ ν → κ → ν → Dict κ ν
  | [], k, v => [(k, v)]
  | (a, b) :: t, k, v => if a = k then (a, v) :: t else (a, b) :: dset t k v

/-- `d[k] = f(d.get(k, dflt))` — the shape of every `defaultdict`
read-modify-write (`d[k] += w` etc.) in the source. -/
def dmod (d : Dict κ ν) (k : κ) (dflt : ν) (f : ν → ν) : Dict κ ν :=
  dset d k (f (dget d k dflt))

/-- A bare `defaultdict` *read*, which materialises the key with the default
value (this matters for which keys the source's returned charts contain). -/
def dtouch (d : Dict κ ν) (k : κ) (dflt : ν) : Dict κ ν := dset d k (dget d k dflt)

end DictOps

/-- Modelled from the spec: the semiring trait (rayuela.base.semiring is not in
src/).  Spec §4.1: `zero`, `one`, `⊕`, `⊗`, partial `star`, partial inverse
`~`, and the decidable flags `idempotent` and `superior`. -/
structure SR (α : Type) where
  zero : α
  one : α
  add : α → α → α
  mul : α → α → α
  star : α → Option α
  inv : α → Option α
  idempotent : Bool
  superior : Bool

/-- Modelled from the spec: the Tropical semiring (min, +) over ℤ ∪ {∞}, with
`none` playing ∞ = zero, `one = 0`, `star a = one` when `a ≥ 0` (and
`star ∞ = one`), else ⊥; `~a = -a` (∞ has no inverse).  Spec §4.1's table:
idempotent and superior. -/
def Trop : SR (Option ℤ) where
  zero := none
  one := some 0
  add a b := match a, b with
    | none, b => b
    | a, none => a
    | some x, some y => some (min x y)
  mul a b := match a, b with
    | none, _ => none
    | _, none => none
    | some x, some y => some (x + y)
  star a := match a with
    | none => some (some 0)
    | some x => if 0 ≤ x then some (some 0) else none
  inv a := match a with
    | none => none
    | some x => some (some (-x))
  idempotent := true
  superior := true

/-- Modelled from the spec: the Boolean semiring (∨, ∧); `star = one`,
`~one = one` and `~zero` is undefined; idempotent and superior. -/
def BoolSR : SR Bool where
  zero := false
  one := true
  add := or
  mul := and
  star _ := some true
  inv a := if a then some true else none
  idempotent := true
  superior := true

/-- A semiring record whose carrier is a Lean commutative semiring with the
matching operations; used to state algebraic (law-dependent) theorems. -/
def SR.ofComm (α : Type) [CommSemiring α] (st : α → Option α) (iv : α → Option α)
    (idem sup : Bool) : SR α where
  zero := 0
  one := 1
  add := (· + ·)
  mul := (· * ·)
  star := st
  inv := iv
  idempotent := idem
  superior := sup

/-- `star` of the Real semiring: `1/(1-a)` when `|a| < 1`, else ⊥. -/
def realStar (a : ℚ) : Option ℚ := if |a| < 1 then some ((1 - a)⁻¹) else none

/-- `~` of the Real semiring: reciprocal on non-zero elements. -/
def realInv (a : ℚ) : Option ℚ := if a = 0 then none else some a⁻¹

/-- Modelled from the spec: the Real (probability) semiring, realised exactly
over ℚ: `⊕ = +`, `⊗ = ×`; neither idempotent nor superior. -/
def RealQ : SR ℚ := SR.ofComm ℚ realStar realInv false false

/-- `star` on the integer fragment of the Real semiring: `|a| < 1` means
`a = 0`, and `1/(1-0) = 1`. -/
def intStar (a : ℤ) : Option ℤ := if a = 0 then some 1 else none

/-- `~` on the integer fragment of the Real semiring: only `±1` invert. -/
def intInv (a : ℤ) : Option ℤ :=
  if a = 1 then some 1 else if a = -1 then some (-1) else none

/-- The integer-weighted fragment of the Real semiring (`⊕ = +`, `⊗ = ×`,
neither idempotent nor superior): the concrete inputs below all carry integer
weights, and ℤ — unlike ℚ — is exactly evaluable by the kernel. -/
def IntSR : SR ℤ := SR.ofComm ℤ intStar intInv false false

/-- Symbols (rayuela.base.symbol, modelled from the spec): letters drawn from
`κ` plus the three distinguished epsilon markers `ε`, `ε₁`, `ε₂` used by the
intersection filter. -/
inductive Sym (κ : Type) : Type where
  | letter : κ → Sym κ
  | eps : Sym κ
  | eps1 : Sym κ
  | eps2 : Sym κ
deriving DecidableEq

/-- The WFSA 5-tuple ⟨R, Σ, Q, δ, λ, ρ⟩ of fsa.py (`FSA.__init__`): the
semiring is passed separately to each operation; `Q` and `Sigma` are
insertion-ordered duplicate-free lists (spec §5 requires deterministic,
insertion-ordered iteration); `δ` is the nested dict `Q → Σ → Q → R` with
missing entries meaning `zero`; `lam`/`ρ` are the initial/final weight charts
(`λ` is spelled `lam`, Lean reserves `λ`). -/
structure FSA (σ κ α : Type) : Type where
  Q : List σ
  Sigma : List (Sym κ)
  δ : Dict σ (Dict (Sym κ) (Dict σ α))
  lam : Dict σ α
  ρ : Dict σ α

namespace FSA

variable {σ κ α : Type} [DecidableEq σ] [DecidableEq κ] [DecidableEq α]

/-- `FSA(R=...)`: the empty automaton. -/
def empty (σ κ α : Type) : FSA σ κ α := ⟨[], [], [], [], []⟩

/-- `FSA.add_state`. -/
def add_state (F : FSA σ κ α) (q : σ) : FSA σ κ α :=
  if q ∈ F.Q then F else { F with Q := F.Q ++ [q] }

/-- Add a symbol to Σ (the `self.Sigma.add(a)` in `add_arc`/`set_arc`). -/
def addSym (F : FSA σ κ α) (a : Sym κ) : FSA σ κ α :=
  if a ∈ F.Sigma then F else { F with Sigma := F.Sigma ++ [a] }

/-- `FSA.add_arc(i, a, j, w)`: `δ[i][a][j] += w` (the default-dict read means
the new value is `zero ⊕ w` when the entry is fresh). -/
def add_arc (S : SR α) (F : FSA σ κ α) (i : σ) (a : Sym κ) (j : σ) (w : α) : FSA σ κ α :=
  let F := addSym ((F.add_state i).add_state j) a
  let row := dget F.δ i []
  let cell := dget row a []
  { F with δ := dset F.δ i (dset row a (dset cell j (S.add (dget cell j S.zero) w))) }

/-- `FSA.set_arc(i, a, j, w)`: `δ[i][a][j] = w`. -/
def set_arc (F : FSA σ κ α) (i : σ) (a : Sym κ) (j : σ) (w : α) : FSA σ κ α :=
  let F := addSym ((F.add_state i).add_state j) a
  let row := dget F.δ i []
  let cell := dget row a []
  { F with δ := dset F.δ i (dset row a (dset cell j w)) }

/-- `FSA.set_I(q, w)`. -/
def set_I (F : FSA σ κ α) (q : σ) (w : α) : FSA σ κ α :=
  let F := F.add_state q
  { F with lam := dset F.lam q w }

/-- `FSA.set_F(q, w)`. -/
def set_F (F : FSA σ κ α) (q : σ) (w : α) : FSA σ κ α :=
  let F := F.add_state q
  { F with ρ := dset F.ρ q w }

/-- `FSA.add_I(q, w)`: `λ[q] += w`. -/
def add_I (S : SR α) (F : FSA σ κ α) (q : σ) (w : α) : FSA σ κ α :=
  let F := F.add_state q
  { F with lam := dmod F.lam q S.zero (fun old => S.add old w) }

/-- `FSA.add_F(q, w)`: `ρ[q] += w`. -/
def add_F (S : SR α) (F : FSA σ κ α) (q : σ) (w : α) : FSA σ κ α :=
  let F := F.add_state q
  { F with ρ := dmod F.ρ q S.zero (fun old => S.add old w) }

/-- The generator `FSA.I`: pairs `(q, λ(q))` with non-`zero` weight, in chart
insertion order. -/
def Ilist (S : SR α) (F : FSA σ κ α) : List (σ × α) :=
  F.lam.filter (fun qw => ¬ qw.2 = S.zero)

/-- The generator `FSA.F`. -/
def Flist (S : SR α) (F : FSA σ κ α) : List (σ × α) :=
  F.ρ.filter (fun qw => ¬ qw.2 = S.zero)

/-- `FSA.arcs(i, no_eps)`: enumerate `(a, j, w)` skipping `zero`-weight
entries (and `ε`-labelled arcs when `no_eps`), in dict insertion order. -/
def arcs (S : SR α) (F : FSA σ κ α) (i : σ) (noEps : Bool) : List (Sym κ × σ × α) :=
  (dget F.δ i []).flatMap (fun aT =>
    if noEps ∧ aT.1 = Sym.eps then []
    else aT.2.filterMap (fun jw => if jw.2 = S.zero then none else some (aT.1, jw.1, jw.2)))

/-- `FSA.num_states`. -/
def num_states (F : FSA σ κ α) : Nat := F.Q.length

/-- `FSA.spawn(keep_init, keep_final)`. -/
def spawn (S : SR α) (F : FSA σ κ α) (keepInit keepFinal : Bool) : FSA σ κ α :=
  let F1 := if keepInit then
    (Ilist S F).foldl (fun G qw => G.set_I qw.1 qw.2) (empty σ κ α)
  else empty σ κ α
  if keepFinal then (Flist S F).foldl (fun G qw => G.set_F qw.1 qw.2) F1 else F1

/-- `FSA.deterministic`: at most one non-`zero` target per state and symbol. -/
def deterministic (S : SR α) (F : FSA σ κ α) : Bool :=
  F.Q.all (fun i => (dget F.δ i []).all (fun aT =>
    (aT.2.filter (fun jw => ¬ jw.2 = S.zero)).length ≤ 1))

/-- `FSA.pushed`: for every state, `(⊕ all stored outgoing weights) ⊕ ρ(i) = one`
(note the source folds over every stored `δ` entry, zero-weight ones included). -/
def pushed (S : SR α) (F : FSA σ κ α) : Bool :=
  F.Q.all (fun i =>
    let wsum := (dget F.δ i []).foldl
      (fun acc aT => aT.2.foldl (fun acc jw => S.add acc jw.2) acc) S.zero
    S.add wsum (dget F.ρ i S.zero) = S.one)

/-- `FSA.reverse`: swap initial/final, flip arcs. -/
def reverse (S : SR α) (F : FSA σ κ α) : FSA σ κ α :=
  let R0 := F.Q.foldl (fun G i =>
    (arcs S F i false).foldl (fun G ajw => add_arc S G ajw.2.1 ajw.1 i ajw.2.2) G)
    (empty σ κ α)
  let R1 := (Ilist S F).foldl (fun G qw => add_F S G qw.1 qw.2) R0
  (Flist S F).foldl (fun G qw => add_I S G qw.1 qw.2) R1

end FSA

/-! ### Depth-first search, `acyclic`, `toposort` (fsa.py:223-277) -/

/-- The mutable state of `FSA.dfs`: the `in_progress` set (as the stack of
currently open calls, newest first), the `finished` dict `state ↦ finishing
counter`, the `cyclic` flag and the counter. -/
structure DfsSt (σ : Type) : Type where
  inProg : List σ
  finished : Dict σ Nat
  cyclic : Bool
  counter : Nat

namespace FSA

variable {σ κ α : Type} [DecidableEq σ] [DecidableEq κ] [DecidableEq α]

/-- The recursive `_dfs(p)` of `FSA.dfs`, fueled (the recursion depth is
bounded by the number of states, so the fuel `|Q| + 1` used below never runs
out on well-formed automata): mark `p` in progress, sweep its arcs — a target
in progress sets `cyclic`, an unfinished target is visited recursively — then
unmark `p` and record its finishing time. -/
def dfsVisit (S : SR α) (F : FSA σ κ α) : Nat → σ → DfsSt σ → DfsSt σ
  | 0, _, st => st
  | fuel + 1, p, st =>
    let st1 : DfsSt σ := { st with inProg := p :: st.inProg }
    let st2 := (arcs S F p false).foldl
      (fun st aqw =>
        if aqw.2.1 ∈ st.inProg then { st with cyclic := true }
        else if dhas st.finished aqw.2.1 then st
        else dfsVisit S F fuel aqw.2.1 st) st1
    { st2 with inProg := st2.inProg.erase p,
               finished := dset st2.finished p st2.counter,
               counter := st2.counter + 1 }

/-- `FSA.dfs()`: run `_dfs` from every initial state; returns
`(cyclic, finished)`. -/
def dfs (S : SR α) (F : FSA σ κ α) : Bool × Dict σ Nat :=
  let st := (Ilist S F).foldl
    (fun st qw => dfsVisit S F (F.Q.length + 1) qw.1 st)
    ⟨[], [], false, 0⟩
  (st.cyclic, st.finished)

/-- `FSA.acyclic`. -/
def acyclic (S : SR α) (F : FSA σ κ α) : Bool := !(dfs S F).1

/-- Stable insertion into a list ascending in the `Nat` component. -/
def insAsc (x : σ × Nat) : List (σ × Nat) → List (σ × Nat)
  | [] => [x]
  | y :: t => if x.2 ≤ y.2 then x :: y :: t else y :: insAsc x t

/-- `FSA.finish(rev)` minus its optional assert: the visited states sorted by
finishing counter — ascending when `rev`, descending (reverse finishing time,
i.e. topological) otherwise. -/
def finishOrder (S : SR α) (F : FSA σ κ α) (rev : Bool) : List σ :=
  let fin := (dfs S F).2
  let sorted := fin.foldr insAsc []
  if rev then sorted.map Prod.fst else sorted.reverse.map Prod.fst

/-- `FSA.toposort(rev)` = `finish(rev, acyclic_check=True)`; the assert turns
into an error. -/
def toposort (S : SR α) (F : FSA σ κ α) (rev : Bool) : Except Err (List σ) :=
  if acyclic S F then .ok (finishOrder S F rev) else .error .assertFail

end FSA

/-! ### The Pathsum engine (pathsum.py) -/

/-- `class Strategy` (pathsum.py:13-20). -/
inductive Strategy : Type where
  | VITERBI | BELLMANFORD | DIJKSTRA | LEHMANN | JOHNSON | FIXPOINT | DECOMPOSED_LEHMANN
deriving DecidableEq

/-- Square matrices over the semiring, indexed by the state-enumeration index
(`Pathsum.I`). -/
abbrev Mat (α : Type) : Type := Nat → Nat → α

namespace Pathsum

variable {σ κ α : Type} [DecidableEq σ] [DecidableEq κ] [DecidableEq α]

open FSA

/-- `Pathsum.I`: state ↦ enumeration index (`Q` is kept in insertion order). -/
def idx (F : FSA σ κ α) (q : σ) : Nat := F.Q.indexOf q

/-- `Mat` update at one entry. -/
def mset (M : Mat α) (i j : Nat) (v : α) : Mat α :=
  fun a b => if a = i ∧ b = j then v else M a b

/-- `Pathsum.lift`: the weight matrix `W[i,j] = ⊕ arc weights i → j`. -/
def lift (S : SR α) (F : FSA σ κ α) : Mat α :=
  F.Q.foldl (fun W p =>
    (arcs S F p false).foldl (fun W ajw =>
      let i := idx F p
      let j := idx F ajw.2.1
      mset W i j (S.add (W i j) ajw.2.2)) W)
    (fun _ _ => S.zero)

/-- Frozen-dict access (`KeyError` when the key is absent). -/
def keyE (d : Dict σ α) (q : σ) : Except Err α :=
  match dlook d q with
  | none => .error .keyError
  | some v => .ok v

/-- `~v` (partial). -/
def invE (S : SR α) (v : α) : Except Err α :=
  match S.inv v with
  | none => .error .invUndef
  | some v => .ok v

/-- `Pathsum.viterbi_fwd` (pathsum.py:191-204): seed `α[q] = λ(q)` on
initials, then relax arcs in topological order. -/
def viterbi_fwd (S : SR α) (F : FSA σ κ α) : Dict σ α :=
  let base := (Ilist S F).foldl (fun c qw => dset c qw.1 qw.2) []
  (finishOrder S F false).foldl (fun c p =>
    (arcs S F p false).foldl (fun c ajw =>
      dmod c ajw.2.1 S.zero (fun old => S.add old (S.mul (dget c p S.zero) ajw.2.2))) c) base

/-- `Pathsum.viterbi_bwd` (pathsum.py:206-223): seed `β[q] = ρ(q)` on finals,
then relax arcs in reverse topological order (`toposort(rev=True)`). -/
def viterbi_bwd (S : SR α) (F : FSA σ κ α) : Dict σ α :=
  let base := (Flist S F).foldl (fun c qw => dset c qw.1 qw.2) []
  (finishOrder S F true).foldl (fun c p =>
    (arcs S F p false).foldl (fun c ajw =>
      dmod c p S.zero (fun old => S.add old (S.mul ajw.2.2 (dget c ajw.2.1 S.zero)))) c) base

/-- `Pathsum.viterbi_pathsum(forward)` (pathsum.py:179-189). -/
def viterbi_pathsum (S : SR α) (F : FSA σ κ α) (forward : Bool) : α :=
  if forward then
    let al := viterbi_fwd S F
    F.Q.foldl (fun acc q => S.add acc (S.mul (dget al q S.zero) (dget F.ρ q S.zero))) S.zero
  else
    let be := viterbi_bwd S F
    F.Q.foldl (fun acc q => S.add acc (S.mul (dget F.lam q S.zero) (dget be q S.zero))) S.zero

/-- One `j`-iteration of `Pathsum._lehmann`:
`V[i,k] = U[i,k] + U[i,j] * U[j,j].star() * U[j,k]` (`star` may fail). -/
def lehmannStep (S : SR α) (U : Mat α) (j : Nat) : Except Err (Mat α) :=
  match S.star (U j j) with
  | none => .error .starUndef
  | some s => .ok (fun i k => S.add (U i k) (S.mul (S.mul (U i j) s) (U j k)))

/-- `Pathsum._lehmann(zero)` (pathsum.py:260-285): the double-buffer swap
reduces to iterating `lehmannStep` for `j = 0..N-1` starting from the lifted
matrix; when `zero`, `one` is added on the diagonal (`i < N`). -/
def _lehmann (S : SR α) (F : FSA σ κ α) (zero : Bool) : Except Err (Mat α) := do
  let N := F.Q.length
  let V ← (List.range N).foldlM (lehmannStep S) (lift S F)
  if zero then
    .ok (fun i k => if i = k ∧ i < N then S.add (V i k) S.one else V i k)
  else
    .ok V

/-- `Pathsum.lehmann(zero)` (pathsum.py:287-301): wrap the closure matrix into
a dict keyed by state pairs (the `p in self.I` tests of the source are
re-traced literally; `self.I` indexes every state, so the else-branches are
dead there and here). -/
def lehmann (S : SR α) (F : FSA σ κ α) (zero : Bool) : Except Err (Dict (σ × σ) α) := do
  let V ← _lehmann S F zero
  .ok (F.Q.flatMap (fun p => F.Q.map (fun q =>
    ((p, q),
      if F.Q.contains p ∧ F.Q.contains q then V (idx F p) (idx F q)
      else if p = q ∧ zero then S.one
      else S.zero))))

/-- `Pathsum.allpairs_pathsum(W)`: `⊕_{p,q} λ(p) ⊗ W[p,q] ⊗ ρ(q)` (chart
accesses default to `zero`, matching the `R.chart()` used by `johnson`). -/
def allpairs_pathsum (S : SR α) (F : FSA σ κ α) (W : Dict (σ × σ) α) : α :=
  F.Q.foldl (fun acc p => F.Q.foldl (fun acc q =>
    S.add acc (S.mul (S.mul (dget F.lam p S.zero) (dget W (p, q) S.zero)) (dget F.ρ q S.zero)))
    acc) S.zero

/-- `Pathsum.allpairs_fwd(W)`. -/
def allpairs_fwd (S : SR α) (F : FSA σ κ α) (W : Dict (σ × σ) α) : Dict σ α :=
  F.Q.foldl (fun c p => F.Q.foldl (fun c q =>
    dmod c q S.zero (fun old => S.add old (S.mul (dget F.lam p S.zero) (dget W (p, q) S.zero))))
    c) []

/-- `Pathsum.allpairs_bwd(W)` (pathsum.py:170-177): NOTE the source discards
its `W` argument and recomputes `self.lehmann()`; the embedding does the same
(the argument is evaluated by the caller, hence taken as an `Except`). -/
def allpairs_bwd (S : SR α) (F : FSA σ κ α) (Warg : Except Err (Dict (σ × σ) α)) :
    Except Err (Dict σ α) := do
  let _ ← Warg
  let W ← lehmann S F true
  .ok (F.Q.foldl (fun c p => F.Q.foldl (fun c q =>
    dmod c p S.zero (fun old => S.add old (S.mul (dget W (p, q) S.zero) (dget F.ρ q S.zero))))
    c) [])

def lehmann_pathsum (S : SR α) (F : FSA σ κ α) : Except Err α := do
  let W ← lehmann S F true
  .ok (allpairs_pathsum S F W)

def lehmann_fwd (S : SR α) (F : FSA σ κ α) : Except Err (Dict σ α) := do
  let W ← lehmann S F true
  .ok (allpairs_fwd S F W)

def lehmann_bwd (S : SR α) (F : FSA σ κ α) : Except Err (Dict σ α) :=
  allpairs_bwd S F (lehmann S F true)

/-- One full relaxation round of `Pathsum.bellmanford_fwd`:
`alpha[q] += alpha[p] * w` for every state `p` and arc `(a, q, w)` (the
`defaultdict` reads materialise `p` before `q` is written). -/
def bfRoundFwd (S : SR α) (F : FSA σ κ α) (c : Dict σ α) : Dict σ α :=
  F.Q.foldl (fun c p => (arcs S F p false).foldl (fun c ajw =>
    let c := dtouch c p S.zero
    dmod c ajw.2.1 S.zero (fun old => S.add old (S.mul (dget c p S.zero) ajw.2.2))) c) c

/-- The chart after the base case and the `N-1` relaxation rounds of
`bellmanford_fwd` (before the negative-cycle check). -/
def bfChartFwd (S : SR α) (F : FSA σ κ α) (I : Option (List σ)) : Dict σ α :=
  let base : Dict σ α := match I with
    | none => (Ilist S F).foldl (fun c qw => dset c qw.1 qw.2) []
    | some l => l.foldl (fun c q => dset c q S.one) []
  (List.range (F.Q.length - 1)).foldl (fun c _ => bfRoundFwd S F c) base

/-- Does some arc still relax on chart `c`
(`alpha[q] + alpha[p] * w != alpha[q]`)? -/
def bfRelaxableFwd (S : SR α) (F : FSA σ κ α) (c : Dict σ α) : Bool :=
  F.Q.any (fun p => (arcs S F p false).any (fun ajw =>
    ¬ S.add (dget c ajw.2.1 S.zero) (S.mul (dget c p S.zero) ajw.2.2) = dget c ajw.2.1 S.zero))

/-- The check loop's `defaultdict` reads (`alpha[q]`, then `alpha[p]`)
materialise the arc endpoints in the returned chart. -/
def bfTouchFwd (S : SR α) (F : FSA σ κ α) (c : Dict σ α) : Dict σ α :=
  F.Q.foldl (fun c p => (arcs S F p false).foldl (fun c ajw =>
    dtouch (dtouch c ajw.2.1 S.zero) p S.zero) c) c

/-- `Pathsum.bellmanford_fwd(I)` (pathsum.py:378-398): base case, `N-1`
relaxation rounds, then the negative-cycle check — a still-relaxable edge
raises (the source raises `AttributeError`), otherwise the chart is frozen and
returned. -/
def bellmanford_fwd (S : SR α) (F : FSA σ κ α) (I : Option (List σ)) :
    Except Err (Dict σ α) :=
  let c := bfChartFwd S F I
  if bfRelaxableFwd S F c then .error .negCycle else .ok (bfTouchFwd S F c)

/-- One full relaxation round of `Pathsum.bellmanford_bwd`:
`beta[p] += w * beta[q]`. -/
def bfRoundBwd (S : SR α) (F : FSA σ κ α) (c : Dict σ α) : Dict σ α :=
  F.Q.foldl (fun c p => (arcs S F p false).foldl (fun c ajw =>
    let c := dtouch c ajw.2.1 S.zero
    dmod c p S.zero (fun old => S.add old (S.mul ajw.2.2 (dget c ajw.2.1 S.zero)))) c) c

/-- The chart after the base case and the `N-1` rounds of `bellmanford_bwd`. -/
def bfChartBwd (S : SR α) (F : FSA σ κ α) (Fin : Option (List σ)) : Dict σ α :=
  let base : Dict σ α := match Fin with
    | none => (Flist S F).foldl (fun c qw => dset c qw.1 qw.2) []
    | some l => l.foldl (fun c q => dset c q S.one) []
  (List.range (F.Q.length - 1)).foldl (fun c _ => bfRoundBwd S F c) base

/-- `beta[p] + w * beta[q] != beta[p]` for some arc? -/
def bfRelaxableBwd (S : SR α) (F : FSA σ κ α) (c : Dict σ α) : Bool :=
  F.Q.any (fun p => (arcs S F p false).any (fun ajw =>
    ¬ S.add (dget c p S.zero) (S.mul ajw.2.2 (dget c ajw.2.1 S.zero)) = dget c p S.zero))

def bfTouchBwd (S : SR α) (F : FSA σ κ α) (c : Dict σ α) : Dict σ α :=
  F.Q.foldl (fun c p => (arcs S F p false).foldl (fun c ajw =>
    dtouch (dtouch c p S.zero) ajw.2.1 S.zero) c) c

/-- `Pathsum.bellmanford_bwd(F)` (pathsum.py:400-420). -/
def bellmanford_bwd (S : SR α) (F : FSA σ κ α) (Fin : Option (List σ)) :
    Except Err (Dict σ α) :=
  let c := bfChartBwd S F Fin
  if bfRelaxableBwd S F c then .error .negCycle else .ok (bfTouchBwd S F c)

/-- `Pathsum.bellmanford_pathsum` (pathsum.py:371-376). -/
def bellmanford_pathsum (S : SR α) (F : FSA σ κ α) : Except Err α := do
  let be ← bellmanford_bwd S F none
  .ok (F.Q.foldl (fun acc q => S.add acc (S.mul (dget F.lam q S.zero) (dget be q S.zero))) S.zero)

/-- Modelled from the spec: `PriorityQueue` (rayuela.base.datastructures is
not in src/); spec §4.3 keys the queue by current distance under the superior
semiring's natural order (`a ≤ b` iff `a ⊕ b = a`).  `popMin` removes the
earliest-pushed entry of minimal priority. -/
def popMin (S : SR α) : List (σ × α) → Option ((σ × α) × List (σ × α))
  | [] => none
  | x :: t =>
    match popMin S t with
    | none => some (x, [])
    | some (y, t') =>
      if S.add y.2 x.2 = y.2 ∧ ¬ y.2 = x.2 then some (y, x :: t') else some (x, t)

/-- The main loop of `Pathsum.dijkstra_fwd`: pop a minimal entry `(i, v)`,
mark `i` popped, `α[i] += v`, push `(j, v ⊗ w)` for every arc `i ─a/w→ j`
with `j` not yet popped. -/
def dijkstraLoop (S : SR α) (F : FSA σ κ α) :
    Nat → List (σ × α) → List σ → Dict σ α → Except Err (Dict σ α)
  | _, [], _, c => .ok c
  | 0, _ :: _, _, _ => .error .fuelOut
  | fuel + 1, agenda, popped, c =>
    match popMin S agenda with
    | none => .ok c
    | some ((i, v), rest) =>
      let popped := i :: popped
      let c := dmod c i S.zero (fun old => S.add old v)
      let pushes := (arcs S F i false).filterMap (fun ajw =>
        if ajw.2.1 ∈ popped then none else some (ajw.2.1, S.mul v ajw.2.2))
      dijkstraLoop S F fuel (rest ++ pushes) popped c

/-- `Pathsum.dijkstra_fwd(I)` (pathsum.py:230-258), fueled. -/
def dijkstra_fwd (S : SR α) (F : FSA σ κ α) (I : Option (List σ)) (fuel : Nat) :
    Except Err (Dict σ α) :=
  if S.superior then
    let agenda : List (σ × α) := match I with
      | none => Ilist S F
      | some l => l.map (fun q => (q, S.one))
    dijkstraLoop S F fuel agenda [] []
  else .error .assertFail

/-- `Pathsum.dijkstra_early` (pathsum.py:225-227): declared, unimplemented. -/
def dijkstra_early (_S : SR α) (_F : FSA σ κ α) : Except Err α :=
  .error .notImpl

/-- `Pathsum.fixpoint` (pathsum.py:442-443): declared, unimplemented. -/
def fixpoint (_S : SR α) (_F : FSA σ κ α) : Except Err (Dict (σ × σ) α) :=
  .error .notImpl

/-- `push_with_potential(fsa, V, sanity_check)` (push.py): Mohri's weight
pushing given potentials `V`; `V[i]` is a plain dict access and `~` is
partial, so both can fail; with `sanity_check` the `assert pfsa.pushed` is
re-traced as an error. -/
def push_with_potential (S : SR α) (F : FSA σ κ α) (V : Dict σ α) (sanity : Bool) :
    Except Err (FSA σ κ α) := do
  let pfsa ← F.Q.foldlM (fun G i => do
      let vi ← keyE V i
      let ivi ← invE S vi
      let G := G.set_I i (S.mul (dget F.lam i S.zero) vi)
      let G := G.set_F i (S.mul ivi (dget F.ρ i S.zero))
      (arcs S F i false).foldlM (fun G ajw => do
          let vj ← keyE V ajw.2.1
          Except.ok (add_arc S G i ajw.1 ajw.2.1 (S.mul (S.mul ivi ajw.2.2) vj))) G)
    (spawn S F false false)
  if sanity then
    if pushed S pfsa then .ok pfsa else .error .assertFail
  else .ok pfsa

/-- `Pathsum.johnson` (pathsum.py:423-436): Bellman-Ford from the initial
states seeded with `one`, invert the chart into potentials, reweight with
`push_with_potential` (no sanity check), run Dijkstra from every source and
undo the reweighting: `W[p,q] = ~alpha[p] ⊗ d(q) ⊗ alpha[q]`. -/
def johnson (S : SR α) (F : FSA σ κ α) (fuel : Nat) : Except Err (Dict (σ × σ) α) := do
  let al ← bellmanford_fwd S F (some ((Ilist S F).map Prod.fst))
  let V ← al.mapM (fun qw => do
    let v ← invE S qw.2
    Except.ok (qw.1, v))
  let pfsa ← push_with_potential S F V false
  F.Q.foldlM (fun W p => do
      let d ← dijkstra_fwd S pfsa (some [p]) fuel
      let ap ← keyE al p
      let iap ← invE S ap
      d.foldlM (fun W qw => do
          let aq ← keyE al qw.1
          Except.ok (dset W (p, qw.1) (S.mul (S.mul iap qw.2) aq))) W)
    []

def johnson_pathsum (S : SR α) (F : FSA σ κ α) (fuel : Nat) : Except Err α := do
  let W ← johnson S F fuel
  .ok (allpairs_pathsum S F W)

def johnson_fwd (S : SR α) (F : FSA σ κ α) (fuel : Nat) : Except Err (Dict σ α) := do
  let W ← johnson S F fuel
  .ok (allpairs_fwd S F W)

def johnson_bwd (S : SR α) (F : FSA σ κ α) (fuel : Nat) : Except Err (Dict σ α) :=
  allpairs_bwd S F (johnson S F fuel)

def fixpoint_pathsum (S : SR α) (F : FSA σ κ α) : Except Err α := do
  let W ← fixpoint S F
  .ok (allpairs_pathsum S F W)

def fixpoint_fwd (S : SR α) (F : FSA σ κ α) : Except Err (Dict σ α) := do
  let W ← fixpoint S F
  .ok (allpairs_fwd S F W)

def fixpoint_bwd (S : SR α) (F : FSA σ κ α) : Except Err (Dict σ α) :=
  allpairs_bwd S F (fixpoint S F)

/-! #### Kosaraju SCC (scc.py) and the decomposed-Lehmann strategy -/

/-- The recursive `dfs(u)` of `SCC._kosaraju` (fueled): skip visited nodes,
otherwise mark visited, recurse on arc targets, then append `u` to the
finishing stack. -/
def sccVisit (S : SR α) (F : FSA σ κ α) : Nat → σ → List σ × List σ → List σ × List σ
  | 0, _, vs => vs
  | fuel + 1, u, (visited, stack) =>
    if u ∈ visited then (visited, stack)
    else
      let vs := (arcs S F u false).foldl
        (fun vs ajw => sccVisit S F fuel ajw.2.1 vs) (u :: visited, stack)
      (vs.1, vs.2 ++ [u])

/-- The recursive `rev_dfs(u, root)` of `SCC._kosaraju` (fueled): assign `u`
to component `root` on the reverse graph unless already assigned. -/
def sccRevVisit (S : SR α) (revF : FSA σ κ α) : Nat → σ → σ → Dict σ σ → Dict σ σ
  | 0, _, _, comp => comp
  | fuel + 1, u, root, comp =>
    if dhas comp u then comp
    else (arcs S revF u false).foldl
      (fun c ajw => sccRevVisit S revF fuel ajw.2.1 root c) (dset comp u root)

/-- The zero-in-degree worklist at the end of `SCC._kosaraju`, fueled: pop a
component, emit its state set, decrement the in-degree of its successors. -/
def sccTopoLoop (G : Dict σ (List σ)) (sccs : Dict σ (List σ)) :
    Nat → List σ → Dict σ Nat → List (List σ) → List (List σ)
  | 0, _, _, result => result
  | _ + 1, [], _, result => result
  | fuel + 1, cu :: stack, deg, result =>
    let (deg, stack) := (dget G cu []).foldl
      (fun (ds : Dict σ Nat × List σ) cv =>
        let d := dget ds.1 cv 0 - 1
        let stack := if d = 0 then cv :: ds.2 else ds.2
        (dset ds.1 cv d, stack))
      (deg, stack)
    sccTopoLoop G sccs fuel stack deg (result ++ [dget sccs cu []])

/-- `SCC.scc()` / `SCC._kosaraju` (scc.py): finishing-order DFS on `G`, DFS on
the reverse graph popping the finishing stack, then a topological sort of the
component DAG. -/
def scc (S : SR α) (F : FSA σ κ α) : List (List σ) :=
  let fuel := F.Q.length + 1
  let (_, stack) := F.Q.foldl (fun vs q => sccVisit S F fuel q vs) ([], [])
  let revF := reverse S F
  let comp := stack.reverse.foldl
    (fun c q => sccRevVisit S revF (revF.Q.length + F.Q.length + 1) q q c) []
  let sccs : Dict σ (List σ) :=
    comp.foldl (fun d qr => if dhas d qr.2 then d else dset d qr.2 []) []
  let sccs := comp.foldl (fun d qr => dmod d qr.2 [] (fun l => l ++ [qr.1])) sccs
  let G0 : Dict σ (List σ) := sccs.map (fun rl => (rl.1, []))
  let deg0 : Dict σ Nat := sccs.map (fun rl => (rl.1, 0))
  let Gd := F.Q.foldl (fun (Gd : Dict σ (List σ) × Dict σ Nat) u =>
    (arcs S F u false).foldl (fun (Gd : Dict σ (List σ) × Dict σ Nat) ajw =>
      let cu := dget comp u u
      let cv := dget comp ajw.2.1 ajw.2.1
      if cu = cv then Gd
      else (dmod Gd.1 cu [] (fun l => l ++ [cv]), dmod Gd.2 cv 0 (· + 1))) Gd)
    (G0, deg0)
  let stack0 := ((Gd.2.filter (fun cd => cd.2 = 0)).map Prod.fst).reverse
  sccTopoLoop Gd.1 sccs (sccs.length + 1) stack0 Gd.2 []

/-- `Pathsum.local_lehmann(component)` (pathsum.py:307-332): an in-component
Lehmann closure (with the length-zero diagonal), returned as a dict on
component pairs. -/
def local_lehmann (S : SR α) (F : FSA σ κ α) (comp : List σ) :
    Except Err (Dict (σ × σ) α) := do
  let N := comp.length
  let lidx := fun q => comp.indexOf q
  let W0 : Mat α := F.Q.foldl (fun W p =>
    (arcs S F p false).foldl (fun W ajw =>
      if p ∈ comp ∧ ajw.2.1 ∈ comp then
        mset W (lidx p) (lidx ajw.2.1) (S.add (W (lidx p) (lidx ajw.2.1)) ajw.2.2)
      else W) W) (fun _ _ => S.zero)
  let V ← (List.range N).foldlM (lehmannStep S) W0
  let V : Mat α := fun i k => if i = k ∧ i < N then S.add (V i k) S.one else V i k
  .ok (comp.flatMap (fun p => comp.map (fun q => ((p, q), V (lidx p) (lidx q)))))

/-- `Pathsum.decomposed_lehmann_bwd` (pathsum.py:334-359): seed `β` on finals,
then for each SCC in reverse topological order run the inter-component
Viterbi step, the in-component Lehmann closure, and the in-component
propagation. -/
def decomposed_lehmann_bwd (S : SR α) (F : FSA σ κ α) : Except Err (Dict σ α) := do
  let base := (Flist S F).foldl (fun c qw => dset c qw.1 qw.2) []
  (scc S F).reverse.foldlM (fun (be : Dict σ α) comp => do
      let be := comp.foldl (fun be p =>
        (arcs S F p false).foldl (fun be ajw =>
          if ajw.2.1 ∈ comp then be
          else dmod be p S.zero (fun old =>
            S.add old (S.mul ajw.2.2 (dget be ajw.2.1 S.zero)))) be) be
      let W ← local_lehmann S F comp
      let ga : Dict σ α := comp.foldl (fun ga p => comp.foldl (fun ga q =>
        dmod ga p S.zero (fun old =>
          S.add old (S.mul (dget W (p, q) S.zero) (dget be q S.zero)))) ga) []
      Except.ok (comp.foldl (fun be q => dset be q (dget ga q S.zero)) be))
    base

/-- `Pathsum.decomposed_lehmann_pathsum` (pathsum.py:361-369). -/
def decomposed_lehmann_pathsum (S : SR α) (F : FSA σ κ α) : Except Err α := do
  let be ← decomposed_lehmann_bwd S F
  .ok (F.Q.foldl (fun acc q =>
    S.add acc (S.mul (dget F.lam q S.zero) (dget be q S.zero))) S.zero)

/-! #### The strategy dispatchers (pathsum.py:64-154) -/

/-- `Pathsum.pathsum(strategy)` (pathsum.py:64-91); the per-strategy asserts
become `assertFail` errors. -/
def pathsum (S : SR α) (F : FSA σ κ α) (strategy : Strategy) (fuel : Nat) : Except Err α :=
  match strategy with
  | .DIJKSTRA =>
    if S.superior then dijkstra_early S F else .error .assertFail
  | .VITERBI =>
    if acyclic S F then .ok (viterbi_pathsum S F false) else .error .assertFail
  | .BELLMANFORD =>
    if S.idempotent then bellmanford_pathsum S F else .error .assertFail
  | .JOHNSON =>
    if S.idempotent then johnson_pathsum S F fuel else .error .assertFail
  | .LEHMANN => lehmann_pathsum S F
  | .FIXPOINT => fixpoint_pathsum S F
  | .DECOMPOSED_LEHMANN => decomposed_lehmann_pathsum S F

/-- `Pathsum.forward(strategy)` (pathsum.py:93-118); note the source has no
`DECOMPOSED_LEHMANN` branch here, so it falls to the final
`raise NotImplementedError`. -/
def forward (S : SR α) (F : FSA σ κ α) (strategy : Strategy) (fuel : Nat) :
    Except Err (Dict σ α) :=
  match strategy with
  | .DIJKSTRA =>
    if S.superior then dijkstra_fwd S F none fuel else .error .assertFail
  | .VITERBI =>
    if acyclic S F then .ok (viterbi_fwd S F) else .error .assertFail
  | .BELLMANFORD =>
    if S.idempotent then bellmanford_fwd S F none else .error .assertFail
  | .JOHNSON =>
    if S.idempotent then johnson_fwd S F fuel else .error .assertFail
  | .LEHMANN => lehmann_fwd S F
  | .FIXPOINT => fixpoint_fwd S F
  | .DECOMPOSED_LEHMANN => .error .notImpl

/-- `Pathsum.backward(strategy)` (pathsum.py:120-140); no `DIJKSTRA` and no
`DECOMPOSED_LEHMANN` branch in the source — both fall to the final
`raise NotImplementedError`. -/
def backward (S : SR α) (F : FSA σ κ α) (strategy : Strategy) (fuel : Nat) :
    Except Err (Dict σ α) :=
  match strategy with
  | .VITERBI =>
    if acyclic S F then .ok (viterbi_bwd S F) else .error .assertFail
  | .BELLMANFORD =>
    if S.idempotent then bellmanford_bwd S F none else .error .assertFail
  | .JOHNSON =>
    if S.idempotent then johnson_bwd S F fuel else .error .assertFail
  | .LEHMANN => lehmann_bwd S F
  | .FIXPOINT => fixpoint_bwd S F
  | .DIJKSTRA => .error .notImpl
  | .DECOMPOSED_LEHMANN => .error .notImpl

end Pathsum

namespace FSA

variable {σ κ α : Type} [DecidableEq σ] [DecidableEq κ] [DecidableEq α]

/-- `FSA.pathsum(strategy)` (fsa.py:419-423): the engine overrides the
requested strategy with Viterbi whenever the automaton is acyclic. -/
def pathsumF (S : SR α) (F : FSA σ κ α) (strategy : Strategy) (fuel : Nat) : Except Err α :=
  Pathsum.pathsum S F (if acyclic S F then .VITERBI else strategy) fuel

/-- `FSA.forward(strategy)` (fsa.py:425-428). -/
def forwardF (S : SR α) (F : FSA σ κ α) (strategy : Strategy) (fuel : Nat) :
    Except Err (Dict σ α) :=
  Pathsum.forward S F (if acyclic S F then .VITERBI else strategy) fuel

/-- `FSA.backward(strategy)` (fsa.py:430-433). -/
def backwardF (S : SR α) (F : FSA σ κ α) (strategy : Strategy) (fuel : Nat) :
    Except Err (Dict σ α) :=
  Pathsum.backward S F (if acyclic S F then .VITERBI else strategy) fuel

/-- `Transformer.push` (fsa/transformer.py:34-38) = `FSA.push` (fsa.py:161):
backward potentials via Lehmann, then `push_with_potential` with its sanity
check (`assert pfsa.pushed`). -/
def push (S : SR α) (F : FSA σ κ α) : Except Err (FSA σ κ α) := do
  let W ← Pathsum.backward S F .LEHMANN 0
  Pathsum.push_with_potential S F W true

/-- `FSA.equivalent` (fsa.py:501-505): `raise NotImplementedError`. -/
def equivalent (_S : SR α) (_F _G : FSA σ κ α) : Except Err Bool :=
  .error .notImpl

/-- `FSA.determinize` (fsa.py:164-182).  The loop body's first operation is
the attribute lookup `Transformer.powerarcs` — but the `Transformer` class of
fsa/transformer.py defines only `_powerarcs`, so the lookup raises
`AttributeError` as soon as the loop runs; the stack starts as `[QI]` and is
therefore never empty on entry.  (Independently, the second, live `PowerState`
class of state.py lacks the `.residuals` attribute the body reads.)  The
embedding keeps the only structurally possible exit: an empty stack, which
never occurs. -/
def determinize (S : SR α) (F : FSA σ κ α) : Except Err (FSA (List (σ × α)) κ α) :=
  let det := FSA.empty (List (σ × α)) κ α
  let QI : List (σ × α) := Ilist S F
  let det := det.set_I QI S.one
  let stack := [QI]
  match stack with
  | [] => .ok det
  | _ :: _ => .error .attrError

end FSA

/-! ### Intersection with the epsilon filter, and `accept` (fsa.py:449-499, 127-138) -/

/-- The filter states `0`, `1`, `2` and `⊥` (the source passes them around as
`State('0')`, …, `State('⊥')`). -/
inductive FilterState : Type where
  | f0 | f1 | f2 | bot
deriving DecidableEq

/-- Modelled from the spec: `epsilon_filter` (rayuela.base.misc is not in
src/).  Spec §4.2: from `f=0`: non-ε/non-ε → 0, `ε₂/ε₂` → 1, `ε₁/ε₁` → 2;
from `f=1`: only `ε₂/ε₂` → 1, anything pairing non-ε resets to 0; from `f=2`:
only `ε₁/ε₁` → 2, non-ε resets to 0; all other combinations yield ⊥. -/
def epsilon_filter {κ : Type} [DecidableEq κ] (a1 a2 : Sym κ) (f : FilterState) : FilterState :=
  match a1, a2, f with
  | .letter x, .letter y, _ => if x = y then .f0 else .bot
  | .eps2, .eps2, .f0 => .f1
  | .eps1, .eps1, .f0 => .f2
  | .eps2, .eps2, .f1 => .f1
  | .eps1, .eps1, .f2 => .f2
  | _, _, _ => .bot

namespace FSA

variable {σ1 σ2 κ α : Type} [DecidableEq σ1] [DecidableEq σ2] [DecidableEq κ] [DecidableEq α]

/-- `E1` of `FSA.intersect`: the left machine's arcs with real `ε` retagged
`ε₂`, plus the staying `ε₁` self-pair of weight `one`. -/
def interE1 (S : SR α) (F1 : FSA σ1 κ α) (q1 : σ1) : List (Sym κ × σ1 × α) :=
  ((arcs S F1 q1 false).map (fun ajw =>
    (if ajw.1 = Sym.eps then Sym.eps2 else ajw.1, ajw.2.1, ajw.2.2))) ++ [(Sym.eps1, q1, S.one)]

/-- `E2` of `FSA.intersect`: the right machine's arcs with real `ε` retagged
`ε₁`, plus the staying `ε₂` self-pair of weight `one`. -/
def interE2 (S : SR α) (F2 : FSA σ2 κ α) (q2 : σ2) : List (Sym κ × σ2 × α) :=
  ((arcs S F2 q2 false).map (fun ajw =>
    (if ajw.1 = Sym.eps then Sym.eps1 else ajw.1, ajw.2.1, ajw.2.2))) ++ [(Sym.eps2, q2, S.one)]

/-- `M` of `FSA.intersect`: admissible pairs under the filter. -/
def interM (S : SR α) (F1 : FSA σ1 κ α) (F2 : FSA σ2 κ α) (q1 : σ1) (q2 : σ2)
    (qf : FilterState) : List ((Sym κ × σ1 × α) × (Sym κ × σ2 × α)) :=
  (interE1 S F1 q1).flatMap (fun e1 => (interE2 S F2 q2).filterMap (fun e2 =>
    if epsilon_filter e1.1 e2.1 qf = FilterState.bot then none else some (e1, e2)))

/-- One pop of the `FSA.intersect` worklist: emit the product arcs of the
popped triple `(q1, q2, qf)` via `set_arc`, push the unvisited successor
triples, and (`final state handling`) add `ρ₁(q1) ⊗ ρ₂(q2)` when both halves
are final.  Returns the updated product automaton, stack and visited set. -/
def interStep (S : SR α) (F1 : FSA σ1 κ α) (F2 : FSA σ2 κ α)
    (acc : FSA (σ1 × σ2) κ α) (stack : List (σ1 × σ2 × FilterState))
    (visited : List (σ1 × σ2 × FilterState)) (q1 : σ1) (q2 : σ2) (qf : FilterState) :
    FSA (σ1 × σ2) κ α × List (σ1 × σ2 × FilterState) × List (σ1 × σ2 × FilterState) :=
  let step := (interM S F1 F2 q1 q2 qf).foldl
    (fun (asv : FSA (σ1 × σ2) κ α × List (σ1 × σ2 × FilterState) × List (σ1 × σ2 × FilterState))
        e12 =>
      let (a1, j1, w1) := e12.1
      let (_a2, j2, w2) := e12.2
      let acc := set_arc asv.1 (q1, q2) a1 (j1, j2) (S.mul w1 w2)
      let nf := epsilon_filter a1 e12.2.1 qf
      if (j1, j2, nf) ∈ asv.2.2 then (acc, asv.2.1, asv.2.2)
      else (acc, (j1, j2, nf) :: asv.2.1, (j1, j2, nf) :: asv.2.2))
    (acc, stack, visited)
  let fin1 := dget F1.ρ q1 S.zero
  let fin2 := dget F2.ρ q2 S.zero
  if ¬ fin1 = S.zero ∧ ¬ fin2 = S.zero then
    (add_F S step.1 (q1, q2) (S.mul fin1 fin2), step.2.1, step.2.2)
  else step

/-- The `while stack` loop of `FSA.intersect`, fueled; also returns the list
of popped triples (in pop order) for the bookkeeping theorems. -/
def interLoop (S : SR α) (F1 : FSA σ1 κ α) (F2 : FSA σ2 κ α) :
    Nat → FSA (σ1 × σ2) κ α → List (σ1 × σ2 × FilterState) →
    List (σ1 × σ2 × FilterState) → List (σ1 × σ2 × FilterState) →
    FSA (σ1 × σ2) κ α × List (σ1 × σ2 × FilterState)
  | _, acc, [], _, popped => (acc, popped)
  | 0, acc, _ :: _, _, popped => (acc, popped)
  | fuel + 1, acc, t :: stack, visited, popped =>
    let r := interStep S F1 F2 acc stack visited t.1 t.2.1 t.2.2
    interLoop S F1 F2 fuel r.1 r.2.1 r.2.2 (popped ++ [t])

/-- `FSA.intersect(fsa)` (fsa.py:449-499): initial product states with weight
`w₁ ⊗ w₂`, then the on-the-fly worklist seeded with the initial pairs at
filter state `0`. -/
def intersect (S : SR α) (F1 : FSA σ1 κ α) (F2 : FSA σ2 κ α) : FSA (σ1 × σ2) κ α :=
  let I1 := Ilist S F1
  let I2 := Ilist S F2
  let acc := I1.foldl (fun acc qw1 => I2.foldl (fun acc qw2 =>
    add_I S acc (qw1.1, qw2.1) (S.mul qw1.2 qw2.2)) acc) (empty (σ1 × σ2) κ α)
  let seeds : List (σ1 × σ2 × FilterState) :=
    I1.flatMap (fun qw1 => I2.map (fun qw2 => (qw1.1, qw2.1, FilterState.f0)))
  let fuel := I1.length * I2.length + 3 * (F1.Q.length + 1) * (F2.Q.length + 1) + 1
  (interLoop S F1 F2 fuel acc seeds seeds []).1

/-- The straight-line automaton built inside `FSA.accept` for the string `s`:
states `0..|s|`, arcs `i ─sᵢ/one→ i+1`, initial `0` (weight `one`), final
`|s|` (`add_F` with weight `one`). -/
def strFSA (S : SR α) (s : List κ) : FSA Nat κ α :=
  let F := s.enum.foldl (fun F ix =>
    add_arc S F ix.1 (Sym.letter ix.2) (ix.1 + 1) S.one) (empty Nat κ α)
  let F := F.set_I 0 S.one
  add_F S F s.length S.one

/-- `FSA.accept(string)` (fsa.py:127-138): the pathsum (default strategy) of
the intersection with the straight-line automaton — a semiring value.  (The
`LEHMANN` default takes no fuel-consuming branch: acyclic products dispatch to
Viterbi and the rest goes to Lehmann, so the fuel argument is irrelevant.) -/
def accept {σ : Type} [DecidableEq σ] (S : SR α) (F : FSA σ κ α) (s : List κ) : Except Err α :=
  pathsumF S (intersect S F (strFSA S s)) Strategy.LEHMANN 0

end FSA

/-! ### WCFG, Treesum, and the CFG transformer (cfg/transformer.py) -/

/-- A grammar body symbol: a nonterminal (identified by a natural number), a
terminal letter, or ε (in the source, bodies mix `NT` objects and `Sym`
objects, `ε` being a `Sym`). -/
inductive GSym (κ : Type) : Type where
  | nt : Nat → GSym κ
  | term : κ → GSym κ
  | geps : GSym κ
deriving DecidableEq

/-- Modelled from the spec: the WCFG ⟨Σ, V, S, P⟩ (rayuela.cfg.cfg is not in
src/): `V` the nonterminals, `start` the distinguished start symbol, `P` the
finite multiset of weighted productions in insertion order (spec §3: "P a
finite multiset of productions `(X → α, w)`"; per-key additive merging and
plain multiset insertion give the same production sums, so `add` is list
append). -/
structure CFG (κ α : Type) : Type where
  V : List Nat
  start : Nat
  P : List (Nat × List (GSym κ) × α)

namespace CFG

variable {κ α : Type} [DecidableEq κ] [DecidableEq α]

/-- Is `g` a nonterminal? (`isinstance(X, NT)`). -/
def isNT : GSym κ → Bool
  | .nt _ => true
  | _ => false

/-- The id of a nonterminal symbol. -/
def ntId : GSym κ → Option Nat
  | .nt x => some x
  | _ => none

/-- The weight `∏_i T(α_i)` of a body under a treesum chart `T`
(`T(ε) = T(a) = one` per spec §4.5). -/
def bodyWeight (S : SR α) (T : Dict Nat α) : List (GSym κ) → α
  | [] => S.one
  | g :: rest =>
    S.mul (match g with
      | .nt X => dget T X S.zero
      | .term _ => S.one
      | .geps => S.one) (bodyWeight S T rest)

/-- `⊕_{X→α,w ∈ P} w ⊗ ∏_i T(α_i)` over the productions with head `X`. -/
def headSum (S : SR α) (G : CFG κ α) (T : Dict Nat α) (X : Nat) : α :=
  (G.P.filter (fun p => p.1 = X)).foldl
    (fun acc p => S.add acc (S.mul p.2.2 (bodyWeight S T p.2.1))) S.zero

/-- Modelled from the spec: `Treesum(cfg).table()` — the least fixed point of
`T(X) = ⊕_{X→α,w} w ⊗ ∏_i T(α_i)` (spec §4.5), computed by the single
bottom-up pass the spec prescribes for acyclic grammars, along the
topological nonterminal order `ord` (body nonterminals before heads). -/
def treesumChart (S : SR α) (G : CFG κ α) (ord : List Nat) : Dict Nat α :=
  ord.foldl (fun T X => dset T X (headSum S G T X)) []

/-- Modelled from the spec: `cfg.treesum()` — the treesum of the start
symbol. -/
def treesum (S : SR α) (G : CFG κ α) (ord : List Nat) : α :=
  dget (treesumChart S G ord) G.start S.zero

/-- `ts_null[Z]` where `Z` is a body symbol: the treesum table is an `R.chart`
keyed by nonterminals, so a non-nonterminal key reads the `zero` default. -/
def tsv (S : SR α) (T : Dict Nat α) : GSym κ → α
  | .nt X => dget T X S.zero
  | _ => S.zero

/-- `Transformer.nullaryremove` (cfg/transformer.py:143-167): keep the nullary
sub-grammar (2-ary bodies and `X → ε`), take its treesum `T₀`, then emit for
every `X → Y Z, w` the three productions `X → Y (w ⊗ T₀(Z))`,
`X → Z (w ⊗ T₀(Y))`, `X → Y Z (w)`, keep `X → a` as-is, drop `X → ε`, and
restore the start nullary `S → ε, T₀(S)`.  The `assert len(body) in {1, 2}`
becomes an error. -/
def nullaryremove (S : SR α) (G : CFG κ α) (ord : List Nat) : Except Err (CFG κ α) :=
  if G.P.all (fun p => p.2.1.length = 1 ∨ p.2.1.length = 2) then
    let Gnull : CFG κ α :=
      { G with P := G.P.filter (fun p => p.2.1.length = 2 ∨ p.2.1 = [GSym.geps]) }
    let T0 := treesumChart S Gnull ord
    let newP := G.P.flatMap (fun p =>
      match p.2.1 with
      | [Y, Z] =>
          [(p.1, [Y], S.mul p.2.2 (tsv S T0 Z)),
           (p.1, [Z], S.mul p.2.2 (tsv S T0 Y)),
           (p.1, [Y, Z], p.2.2)]
      | [x] => if x = GSym.geps then [] else [(p.1, [x], p.2.2)]
      | _ => [])
    .ok { G with P := newP ++ [(G.start, [GSym.geps], dget T0 G.start S.zero)] }
  else .error .assertFail

/-- Modelled from the spec: `cfg.make_unary_fsa` (rayuela.cfg.cfg is not in
src/).  Spec §3/§4.5: one state per nonterminal plus a distinguished sink
(the `none` state), and for each unary production `X → Y, w` an arc `Y → X`
of weight `w` (the arc label is irrelevant to the closure and is taken to be
`ε`). -/
def make_unary_fsa (S : SR α) (G : CFG κ α) : FSA (Option Nat) κ α :=
  let F := G.V.foldl (fun F X => F.add_state (some X)) (FSA.empty (Option Nat) κ α)
  let F := F.add_state none
  G.P.foldl (fun F p =>
    match p.2.1 with
    | [GSym.nt Y] => FSA.add_arc S F (some Y) Sym.eps (some p.1) p.2.2
    | _ => F) F

/-- All length-`k` tuples over `V`, in the order of `itertools.product`
(last coordinate varying fastest). -/
def tuples (V : List Nat) : Nat → List (List Nat)
  | 0 => [[]]
  | k + 1 => V.flatMap (fun y => (tuples V k).map (y :: ·))

/-- `math.prod([W[Y, X] for Y, X in zip(Ys, Xs)], start=one)`. -/
def prodW (S : SR α) (W : Dict (Option Nat × Option Nat) α) (pairs : List (Nat × Nat)) : α :=
  pairs.foldl (fun acc yx => S.mul acc (dget W (some yx.1, some yx.2) S.zero)) S.one

/-- `body_new = list(body); body_new[ind] = Y for ind, Y in zip(nt_indices, Ys)`. -/
def substitute (body : List (GSym κ)) (idxs : List Nat) (Ys : List Nat) : List (GSym κ) :=
  (idxs.zip Ys).foldl (fun b iy => b.set iy.1 (GSym.nt iy.2)) body

/-- `Transformer.unaryremove` (cfg/transformer.py:115-141): Lehmann closure
`W` of the unary FSA, then for every production with `len(body) > 1`
enumerate all substitutions of its nonterminal occurrences `Xᵢ` by
nonterminals `Yᵢ ∈ V` with weight `w ⊗ ∏ W[Yᵢ, Xᵢ]` (skipping `zero`
weights), keep single-`Sym` bodies (terminals and `ε`) as-is, and drop the
unary productions. -/
def unaryremove (S : SR α) (G : CFG κ α) : Except Err (CFG κ α) := do
  let W ← Pathsum.lehmann S (make_unary_fsa S G) true
  let newP := G.P.flatMap (fun p =>
    if 1 < p.2.1.length then
      let ntIdxs := ((p.2.1.enum.filter (fun ig => isNT ig.2)).map Prod.fst)
      let Xs := p.2.1.filterMap ntId
      (tuples G.V ntIdxs.length).filterMap (fun Ys =>
        let wnew := S.mul p.2.2 (prodW S W (Ys.zip Xs))
        if wnew = S.zero then none
        else some (p.1, substitute p.2.1 ntIdxs Ys, wnew))
    else
      match p.2.1 with
      | [GSym.term a] => [(p.1, [GSym.term a], p.2.2)]
      | [GSym.geps] => [(p.1, [GSym.geps], p.2.2)]
      | _ => [])
  .ok { G with P := newP }

/-- The body shapes of the spec's input class for the nullary/unary removals
(the class the `__main__` tests of cfg/transformer.py draw from, minus unary
rules): a single terminal, `ε`, or two nonterminals. -/
def binBody : List (GSym κ) → Bool
  | [GSym.term _] => true
  | [GSym.geps] => true
  | [GSym.nt _, GSym.nt _] => true
  | _ => false

/-- Every production body is a single terminal, `ε`, or two nonterminals. -/
def BinForm (G : CFG κ α) : Prop := ∀ p ∈ G.P, binBody p.2.1 = true

/-- Every nonterminal of `body` passes the test `f`. -/
def ntsOk (f : Nat → Bool) (body : List (GSym κ)) : Bool :=
  body.all (fun g => match g with | GSym.nt Y => f Y | _ => true)

/-- `ord` is a bottom-up (topological) evaluation order for `G`: no
duplicates, it contains the start symbol, and every body nonterminal occurs
in `ord` strictly before its production's head. -/
def BottomUp (G : CFG κ α) (ord : List Nat) : Prop :=
  ord.Nodup ∧ G.start ∈ ord ∧
  ∀ p ∈ G.P, p.1 ∈ ord ∧
    ntsOk (fun Y => decide (Y ∈ ord) && decide (ord.indexOf Y < ord.indexOf p.1)) p.2.1 = true

/-- The start symbol occurs in no body. -/
def StartSep (G : CFG κ α) : Prop := ∀ p ∈ G.P, GSym.nt G.start ∉ p.2.1

/-- All body nonterminals are listed in `G.V`. -/
def NTsInV (G : CFG κ α) : Prop :=
  ∀ p ∈ G.P, ntsOk (fun Y => decide (Y ∈ G.V)) p.2.1 = true

end CFG

/-! ### Reachability predicates (for the DFS claims) -/

namespace FSA

variable {σ κ α : Type} [DecidableEq σ] [DecidableEq κ] [DecidableEq α]

/-- One (non-`zero`) arc step. -/
def Step (S : SR α) (F : FSA σ κ α) (p q : σ) : Prop :=
  ∃ ajw ∈ arcs S F p false, ajw.2.1 = q

/-- `q` is reachable from some state of non-`zero` initial weight. -/
def ReachI (S : SR α) (F : FSA σ κ α) (q : σ) : Prop :=
  ∃ iw ∈ Ilist S F, Relation.ReflTransGen (Step S F) iw.1 q

/-- The part of `F` reachable from the initial states is cycle-free. -/
def ReachCycleFree (S : SR α) (F : FSA σ κ α) : Prop :=
  ¬ ∃ q, ReachI S F q ∧ Relation.TransGen (Step S F) q q

/-- `⊕_{q ∈ Q} λ(q) ⊗ ρ(q)`: the empty-path accepting mass. -/
def lamrho_sum (S : SR α) (F : FSA σ κ α) : α :=
  F.Q.foldl (fun acc q => S.add acc (S.mul (dget F.lam q S.zero) (dget F.ρ q S.zero))) S.zero

/-- Is a symbol a plain letter (not `ε` and not one of the filter markers
`ε₁`, `ε₂`, which the spec reserves for the intersection filter)? -/
def isLetter : Sym κ → Bool
  | .letter _ => true
  | _ => false

/-- `F` is ε-free: every arc label is a plain letter. -/
def EpsFree (S : SR α) (F : FSA σ κ α) : Prop :=
  ∀ p ∈ F.Q, ∀ e ∈ arcs S F p false, isLetter e.1 = true

end FSA

/-! ### Concrete automata used by the theorems -/

open FSA

/-- The tropical example of fsa.py's `__main__` (fsa.py:782-801): states
{0,1,2,3}, arcs 0─a/1→1, 0─a/2→2, 1─b/3→1, 2─b/3→2, 1─c/5→3, 2─d/6→3,
2─d/−2→1; I = {0}, F = {3}. -/
def tropEx : FSA Nat Char (Option ℤ) :=
  let F := (FSA.empty Nat Char (Option ℤ)).set_I 0 Trop.one
  let F := F.add_arc Trop 0 (Sym.letter 'a') 1 (some 1)
  let F := F.add_arc Trop 0 (Sym.letter 'a') 2 (some 2)
  let F := F.add_arc Trop 1 (Sym.letter 'b') 1 (some 3)
  let F := F.add_arc Trop 2 (Sym.letter 'b') 2 (some 3)
  let F := F.add_arc Trop 1 (Sym.letter 'c') 3 (some 5)
  let F := F.add_arc Trop 2 (Sym.letter 'd') 3 (some 6)
  let F := F.add_arc Trop 2 (Sym.letter 'd') 1 (some (-2))
  F.set_F 3 Trop.one

/-- C1's failing input: the one-state Boolean automaton with
`λ(0) = ρ(0) = one`. -/
def detEx : FSA Nat Char Bool :=
  ((FSA.empty Nat Char Bool).set_I 0 BoolSR.one).set_F 0 BoolSR.one

/-- C3's left failing input (Real semiring, integer weights): a single state
`0` with `λ = ρ = one` and an `ε` self-loop of weight `one`. -/
def interExL : FSA Nat Char ℤ :=
  let F := ((FSA.empty Nat Char ℤ).set_I 0 IntSR.one).set_F 0 IntSR.one
  F.add_arc IntSR 0 Sym.eps 0 IntSR.one

/-- C3's right failing input: a single state `0` with `λ = ρ = one` and no
arcs. -/
def interExR : FSA Nat Char ℤ :=
  ((FSA.empty Nat Char ℤ).set_I 0 IntSR.one).set_F 0 IntSR.one

/-- C4's witness: an acyclic two-state automaton over the Real semiring
(which is *not* superior, so Dijkstra's own precondition is unmet). -/
def acycEx : FSA Nat Char ℤ :=
  let F := ((FSA.empty Nat Char ℤ).set_I 0 IntSR.one).set_F 1 IntSR.one
  F.add_arc IntSR 0 (Sym.letter 'a') 1 (2 : ℤ)

/-- C5's witness: a two-state tropical automaton 0 ─a/1→ 1 with `λ(0) = one`,
`ρ(1) = one`; its backward potentials are finite, hence invertible. -/
def pushEx : FSA Nat Char (Option ℤ) :=
  let F := ((FSA.empty Nat Char (Option ℤ)).set_I 0 Trop.one).set_F 1 Trop.one
  F.add_arc Trop 0 (Sym.letter 'a') 1 (some 1)

/-- C9's witness: state 0 initial and final with no arcs; a `b`-cycle between
states 1 and 2 unreachable from the initial states. -/
def unreachEx : FSA Nat Char Bool :=
  let F := ((FSA.empty Nat Char Bool).set_I 0 BoolSR.one).set_F 0 BoolSR.one
  let F := F.add_arc BoolSR 1 (Sym.letter 'b') 2 BoolSR.one
  F.add_arc BoolSR 2 (Sym.letter 'b') 1 BoolSR.one

/-- C10's counterexample input: `λ(0) = one`, an `ε`-arc 0 → 1 of weight
`one`, `ρ(1) = one` (Real semiring over ℚ); it has an accepting `ε`-labelled
path but no state that is both initial and final. -/
def epsAccEx : FSA Nat Char ℤ :=
  let F := ((FSA.empty Nat Char ℤ).set_I 0 IntSR.one).set_F 1 IntSR.one
  F.add_arc IntSR 0 Sym.eps 1 IntSR.one

/-- C7's counterexample grammar (Real semiring, integer weights): `S → Y, 1`, `Y → ε, 1` with
nonterminals `S = 0`, `Y = 1`; acyclic with bottom-up order `[Y, S]`. -/
def cexG : CFG Char ℤ :=
  { V := [0, 1], start := 0,
    P := [(0, [GSym.nt 1], 1), (1, [GSym.geps], 1)] }

/-- C7's witness grammar (Real semiring, a unary-free fragment of the spec's
nullary-removal scenario): `S → X Y, 2`, `S → ε, 5`, `X → x, 1`,
`X → ε, 3`, `Y → y, 2`, `Y → ε, 4`, with `S = 0`, `X = 1`, `Y = 2` and
bottom-up order `[X, Y, S]`. -/
def witG : CFG Char ℤ :=
  { V := [0, 1, 2], start := 0,
    P := [(0, [GSym.nt 1, GSym.nt 2], 2), (0, [GSym.geps], 5),
          (1, [GSym.term 'x'], 1), (1, [GSym.geps], 3),
          (2, [GSym.term 'y'], 2), (2, [GSym.geps], 4)] }

/-! ## Theorems -/

section DictLemmas

variable {κ ν : Type} [DecidableEq κ]

theorem exbind_ok {β γ : Type} {e : Except Err β} {f : β → Except Err γ} {c : γ}
    (h : e.bind f = .ok c) : ∃ b, e = .ok b ∧ f b = .ok c := by
  cases e with
  | error _ => simp [Except.bind] at h
  | ok b => exact ⟨b, rfl, h⟩

instance instDecEqExcept {β : Type} [DecidableEq β] : DecidableEq (Except Err β) :=
  fun x y =>
  match x, y with
  | .error a, .error b =>
    if h : a = b then .isTrue (by rw [h]) else .isFalse (by simp [h])
  | .ok a, .ok b =>
    if h : a = b then .isTrue (by rw [h]) else .isFalse (by simp [h])
  | .error _, .ok _ => .isFalse (by simp)
  | .ok _, .error _ => .isFalse (by simp)

theorem dlook_dset (d : Dict κ ν) (k q : κ) (v : ν) :
    dlook (dset d k v) q = if k = q then some v else dlook d q := by
  induction d with
  | nil => simp [dset, dlook]
  | cons a t ih =>
    obtain ⟨b, w⟩ := a
    by_cases hbk : b = k
    · subst hbk
      simp only [dset, if_pos rfl, dlook]
      by_cases hbq : b = q <;> simp [hbq]
    · simp only [dset, if_neg hbk, dlook]
      by_cases hbq : b = q
      · have hkq : ¬ k = q := fun h => hbk (hbq.trans h.symm)
        simp [hbq, hkq]
      · simp [hbq, ih]

theorem mem_dlook {d : Dict κ ν} {q : κ} {n : ν} (h : (q, n) ∈ d) :
    ∃ m, dlook d q = some m := by
  induction d with
  | nil => cases h
  | cons a t ih =>
    rcases List.mem_cons.mp h with h | h
    · subst h; exact ⟨n, by simp [dlook]⟩
    · by_cases haq : a.1 = q
      · exact ⟨a.2, by simp [dlook, haq]⟩
      · rcases ih h with ⟨m, hm⟩
        exact ⟨m, by simp [dlook, haq, hm]⟩

theorem dlook_of_mem_nodup {d : Dict κ ν} (hN : (d.map Prod.fst).Nodup)
    {q : κ} {v : ν} (h : (q, v) ∈ d) : dlook d q = some v := by
  induction d with
  | nil => cases h
  | cons a t ih =>
    rcases List.mem_cons.mp h with h | h
    · subst h; simp [dlook]
    · have haq : ¬ a.1 = q := by
        intro he
        have hmem : q ∈ t.map Prod.fst := List.mem_map.mpr ⟨(q, v), h, rfl⟩
        rw [← he] at hmem
        exact (List.nodup_cons.mp (by simpa using hN)).1 hmem
      simp only [dlook, if_neg haq]
      exact ih (List.nodup_cons.mp (by simpa using hN)).2 h

theorem dlook_of_not_mem {d : Dict κ ν} {q : κ} (h : q ∉ d.map Prod.fst) :
    dlook d q = none := by
  induction d with
  | nil => rfl
  | cons a t ih =>
    simp only [List.map_cons, List.mem_cons, not_or] at h
    simp only [dlook]
    rw [if_neg (fun (he : a.1 = q) => h.1 he.symm)]
    exact ih h.2

theorem dset_of_not_mem {d : Dict κ ν} {k : κ} (h : k ∉ d.map Prod.fst) (v : ν) :
    dset d k v = d ++ [(k, v)] := by
  induction d with
  | nil => rfl
  | cons a t ih =>
    simp only [List.map_cons, List.mem_cons, not_or] at h
    simp only [dset]
    rw [if_neg (fun (he : a.1 = k) => h.1 he.symm), ih h.2]
    simp

theorem foldl_add_eq_sum {β : Type} [AddCommMonoid ν] (l : List β) (f : β → ν) :
    ∀ (init : ν), l.foldl (fun acc b => acc + f b) init = init + (l.map f).sum := by
  induction l with
  | nil => intro init; simp
  | cons b t ih =>
    intro init
    simp only [List.foldl_cons, List.map_cons, List.sum_cons, ih, add_assoc]

theorem dlook_mem {d : Dict κ ν} {q : κ} {v : ν} (h : dlook d q = some v) :
    (q, v) ∈ d := by
  induction d with
  | nil => cases h
  | cons a t ih =>
    by_cases haq : a.1 = q
    · simp only [dlook, if_pos haq] at h
      cases h
      exact List.mem_cons.mpr (Or.inl (by rw [← haq]))
    · simp only [dlook, if_neg haq] at h
      exact List.mem_cons.mpr (Or.inr (ih h))

theorem dset_foldl_of_nodup :
    ∀ (l : List (κ × ν)) (acc : Dict κ ν), (l.map Prod.fst).Nodup →
      (∀ kv ∈ l, kv.1 ∉ acc.map Prod.fst) →
      l.foldl (fun c kv => dset c kv.1 kv.2) acc = acc ++ l := by
  intro l
  induction l with
  | nil => intro acc _ _; simp
  | cons kv rest ih =>
    intro acc hN hfresh
    simp only [List.foldl_cons]
    rw [dset_of_not_mem (hfresh kv (List.mem_cons_self _ _)) kv.2]
    rw [ih (acc ++ [(kv.1, kv.2)]) (by simpa using (List.nodup_cons.mp (by simpa using hN)).2) ?_]
    · simp
    · intro kv' hkv'
      simp only [List.map_append, List.mem_append, not_or]
      refine ⟨fun hmem => hfresh kv' (List.mem_cons_of_mem kv hkv') hmem, ?_⟩
      have hne : kv'.1 ≠ kv.1 := by
        intro he
        have : kv'.1 ∈ rest.map Prod.fst := List.mem_map.mpr ⟨kv', hkv', rfl⟩
        rw [he] at this
        exact (List.nodup_cons.mp (by simpa using hN)).1 this
      simp [hne]

/-- Summing over a nodup list equals summing over a nodup sublist when the
function vanishes off the sublist. -/
theorem sum_eq_sum_sublist {β : Type} [DecidableEq β] [AddCommMonoid ν]
    {A B : List β} (hA : A.Nodup) (hB : B.Nodup) (hBA : ∀ b ∈ B, b ∈ A)
    (f : β → ν) (hzero : ∀ a ∈ A, a ∉ B → f a = 0) :
    (A.map f).sum = (B.map f).sum := by
  rw [← List.sum_toFinset f hA, ← List.sum_toFinset f hB]
  refine (Finset.sum_subset ?_ ?_).symm
  · intro b hb
    rw [List.mem_toFinset] at hb ⊢
    exact hBA b hb
  · intro a ha hb
    rw [List.mem_toFinset] at ha
    rw [List.mem_toFinset] at hb
    exact hzero a ha hb

end DictLemmas

section DfsLemmas

variable {σ κ α : Type} [DecidableEq σ] [DecidableEq κ] [DecidableEq α]

open FSA

/-- Every member of the `in_progress` call chain reaches the chain's head. -/
theorem chainReach (S : SR α) (F : FSA σ κ α) :
    ∀ (t : List σ) (h0 : σ), List.Chain' (fun x y => Step S F y x) (h0 :: t) →
      ∀ q ∈ h0 :: t, Relation.ReflTransGen (Step S F) q h0 := by
  intro t
  induction t with
  | nil =>
    intro h0 _ q hq
    rcases List.mem_cons.mp hq with h | h
    · exact h ▸ Relation.ReflTransGen.refl
    · cases h
  | cons b t2 ih =>
    intro h0 hch q hq
    have hstep : Step S F b h0 := (List.chain'_cons.mp hch).1
    rcases List.mem_cons.mp hq with h | hq
    · exact h ▸ Relation.ReflTransGen.refl
    · exact (ih b (List.chain'_cons.mp hch).2 q hq).tail hstep

/-- The `_dfs` invariants: starting from a reachable state `p` with a
reachable in-progress chain linked to `p`, `dfsVisit` restores `in_progress`,
keeps every finished state reachable, and sets `cyclic` only if the reachable
part has a cycle. -/
theorem dfsVisit_good (S : SR α) (F : FSA σ κ α) :
    ∀ (fuel : Nat) (p : σ) (st : DfsSt σ),
      ReachI S F p →
      (∀ q ∈ st.inProg, ReachI S F q) →
      List.Chain' (fun x y => Step S F y x) (p :: st.inProg) →
      (∀ q n, dlook st.finished q = some n → ReachI S F q) →
      (st.cyclic = true → ∃ q, ReachI S F q ∧ Relation.TransGen (Step S F) q q) →
      (dfsVisit S F fuel p st).inProg = st.inProg ∧
      (∀ q n, dlook (dfsVisit S F fuel p st).finished q = some n → ReachI S F q) ∧
      ((dfsVisit S F fuel p st).cyclic = true →
        ∃ q, ReachI S F q ∧ Relation.TransGen (Step S F) q q) := by
  intro fuel
  induction fuel with
  | zero =>
    intro p st _ _ _ hfin hcy
    exact ⟨rfl, hfin, hcy⟩
  | succ n IH =>
    intro p st hp hin hch hfin hcy
    have key : ∀ (l : List (Sym κ × σ × α)), (∀ e ∈ l, e ∈ arcs S F p false) →
        ∀ (st' : DfsSt σ),
          st'.inProg = p :: st.inProg →
          (∀ q m, dlook st'.finished q = some m → ReachI S F q) →
          (st'.cyclic = true → ∃ q, ReachI S F q ∧ Relation.TransGen (Step S F) q q) →
          (l.foldl (fun st aqw =>
              if aqw.2.1 ∈ st.inProg then { st with cyclic := true }
              else if dhas st.finished aqw.2.1 then st
              else dfsVisit S F n aqw.2.1 st) st').inProg = p :: st.inProg ∧
          (∀ q m, dlook (l.foldl (fun st aqw =>
              if aqw.2.1 ∈ st.inProg then { st with cyclic := true }
              else if dhas st.finished aqw.2.1 then st
              else dfsVisit S F n aqw.2.1 st) st').finished q = some m → ReachI S F q) ∧
          ((l.foldl (fun st aqw =>
              if aqw.2.1 ∈ st.inProg then { st with cyclic := true }
              else if dhas st.finished aqw.2.1 then st
              else dfsVisit S F n aqw.2.1 st) st').cyclic = true →
            ∃ q, ReachI S F q ∧ Relation.TransGen (Step S F) q q) := by
      intro l
      induction l with
      | nil =>
        intro _ st' h1 h2 h3
        exact ⟨h1, h2, h3⟩
      | cons e rest ihl =>
        intro hsub st' h1 h2 h3
        have hearcs : e ∈ arcs S F p false := hsub e (List.mem_cons_self e rest)
        have hstep : Step S F p e.2.1 := ⟨e, hearcs, rfl⟩
        have hrest : ∀ e' ∈ rest, e' ∈ arcs S F p false :=
          fun e' he' => hsub e' (List.mem_cons_of_mem e he')
        simp only [List.foldl_cons]
        by_cases hc1 : e.2.1 ∈ st'.inProg
        · simp only [hc1, if_pos]
          refine ihl hrest _ h1 h2 ?_
          intro _
          have hq : e.2.1 ∈ p :: st.inProg := h1 ▸ hc1
          have hreach : ReachI S F e.2.1 := by
            rcases List.mem_cons.mp hq with h | h
            · exact h ▸ hp
            · exact hin _ h
          have hrtg : Relation.ReflTransGen (Step S F) e.2.1 p :=
            chainReach S F st.inProg p hch e.2.1 hq
          exact ⟨e.2.1, hreach, Relation.TransGen.tail' hrtg hstep⟩
        · simp only [hc1, if_neg, if_false]
          by_cases hc2 : dhas st'.finished e.2.1
          · simp only [hc2, if_pos]
            exact ihl hrest _ h1 h2 h3
          · simp only [hc2, if_neg, if_false]
            have hreach : ReachI S F e.2.1 := by
              obtain ⟨iw, hiw, hr⟩ := hp
              exact ⟨iw, hiw, hr.tail hstep⟩
            have hch' : List.Chain' (fun x y => Step S F y x) (e.2.1 :: st'.inProg) := by
              rw [h1]
              exact List.chain'_cons.mpr ⟨hstep, h1 ▸ hch⟩
            have post := IH e.2.1 st' hreach
              (by rw [h1]; intro q hq
                  rcases List.mem_cons.mp hq with rfl | hq
                  · exact hp
                  · exact hin _ hq)
              hch' h2 h3
            exact ihl hrest _ (post.1.trans h1) post.2.1 post.2.2
    have main := key (arcs S F p false) (fun _ he => he)
      { st with inProg := p :: st.inProg } rfl hfin hcy
    refine ⟨?_, ?_, ?_⟩
    · show (dfsVisit S F (n+1) p st).inProg = st.inProg
      simp only [dfsVisit]
      rw [main.1]
      exact List.erase_cons_head p st.inProg
    · show ∀ q m, dlook (dfsVisit S F (n+1) p st).finished q = some m → ReachI S F q
      simp only [dfsVisit]
      intro q m hq
      rw [dlook_dset] at hq
      by_cases hpq : p = q
      · exact hpq ▸ hp
      · rw [if_neg hpq] at hq
        exact main.2.1 q m hq
    · show (dfsVisit S F (n+1) p st).cyclic = true → _
      simp only [dfsVisit]
      exact main.2.2

/-- The top-level `FSA.dfs`: `cyclic` implies a reachable cycle, and every
finished state is reachable. -/
theorem dfs_good (S : SR α) (F : FSA σ κ α) :
    ((dfs S F).1 = true → ∃ q, ReachI S F q ∧ Relation.TransGen (Step S F) q q) ∧
    (∀ q n, dlook (dfs S F).2 q = some n → ReachI S F q) := by
  have key : ∀ (L : List (σ × α)), (∀ iw ∈ L, iw ∈ Ilist S F) →
      ∀ (st : DfsSt σ), st.inProg = [] →
        (∀ q m, dlook st.finished q = some m → ReachI S F q) →
        (st.cyclic = true → ∃ q, ReachI S F q ∧ Relation.TransGen (Step S F) q q) →
        (L.foldl (fun st qw => dfsVisit S F (F.Q.length + 1) qw.1 st) st).inProg = [] ∧
        (∀ q m, dlook (L.foldl (fun st qw =>
            dfsVisit S F (F.Q.length + 1) qw.1 st) st).finished q = some m →
          ReachI S F q) ∧
        ((L.foldl (fun st qw => dfsVisit S F (F.Q.length + 1) qw.1 st) st).cyclic = true →
          ∃ q, ReachI S F q ∧ Relation.TransGen (Step S F) q q) := by
    intro L
    induction L with
    | nil => intro _ st h1 h2 h3; exact ⟨h1, h2, h3⟩
    | cons iw rest ihl =>
      intro hsub st h1 h2 h3
      have hreach : ReachI S F iw.1 :=
        ⟨iw, hsub iw (List.mem_cons_self iw rest), Relation.ReflTransGen.refl⟩
      have post := dfsVisit_good S F (F.Q.length + 1) iw.1 st hreach
        (by rw [h1]; intro q hq; cases hq)
        (by rw [h1]; exact List.chain'_singleton iw.1)
        h2 h3
      simp only [List.foldl_cons]
      exact ihl (fun e he => hsub e (List.mem_cons_of_mem iw he)) _
        (post.1.trans h1) post.2.1 post.2.2
  have main := key (Ilist S F) (fun _ he => he) ⟨[], [], false, 0⟩ rfl
    (by intro q m hq; cases hq) (by intro h; cases h)
  exact ⟨main.2.2, main.2.1⟩

theorem mem_insAsc {x y : σ × Nat} {l : List (σ × Nat)} (h : y ∈ insAsc x l) :
    y = x ∨ y ∈ l := by
  induction l with
  | nil => simpa [insAsc] using h
  | cons a t ih =>
    simp only [insAsc] at h
    by_cases hc : x.2 ≤ a.2
    · rw [if_pos hc] at h
      rcases List.mem_cons.mp h with rfl | h
      · exact Or.inl rfl
      · exact Or.inr h
    · rw [if_neg hc] at h
      rcases List.mem_cons.mp h with h | h
      · exact Or.inr (h ▸ List.mem_cons_self _ _)
      · rcases ih h with h | h
        · exact Or.inl h
        · exact Or.inr (List.mem_cons_of_mem a h)

theorem mem_sortAsc {y : σ × Nat} {l : List (σ × Nat)} (h : y ∈ l.foldr insAsc []) :
    y ∈ l := by
  induction l with
  | nil => cases h
  | cons a t ih =>
    simp only [List.foldr_cons] at h
    rcases mem_insAsc h with h | h
    · exact h ▸ List.mem_cons_self _ _
    · exact List.mem_cons_of_mem a (ih h)

end DfsLemmas

section AcceptLemmas

variable {σ σ1 σ2 κ α : Type}
variable [DecidableEq σ] [DecidableEq σ1] [DecidableEq σ2] [DecidableEq κ] [DecidableEq α]

open FSA Pathsum

theorem arcs_empty_delta (S : SR α) (F : FSA σ κ α) (hδ : F.δ = []) (p : σ) (b : Bool) :
    arcs S F p b = [] := by
  simp [arcs, hδ, dget, dlook]

theorem dfsVisit_cyclic_noarcs (S : SR α) (F : FSA σ κ α) (hδ : F.δ = []) :
    ∀ (fuel : Nat) (p : σ) (st : DfsSt σ), (dfsVisit S F fuel p st).cyclic = st.cyclic := by
  intro fuel
  cases fuel with
  | zero => intro p st; rfl
  | succ n =>
    intro p st
    simp [dfsVisit, arcs_empty_delta S F hδ]

theorem acyclic_noarcs (S : SR α) (F : FSA σ κ α) (hδ : F.δ = []) : acyclic S F = true := by
  have key : ∀ (L : List (σ × α)) (st : DfsSt σ), st.cyclic = false →
      (L.foldl (fun st qw => dfsVisit S F (F.Q.length + 1) qw.1 st) st).cyclic = false := by
    intro L
    induction L with
    | nil => intro st h; exact h
    | cons a t ih =>
      intro st h
      simp only [List.foldl_cons]
      exact ih _ (by rw [dfsVisit_cyclic_noarcs S F hδ]; exact h)
  unfold acyclic dfs
  simp [key (Ilist S F) ⟨[], [], false, 0⟩ rfl]

theorem foldl_id {β γ : Type} : ∀ (l : List γ) (b : β), l.foldl (fun c _ => c) b = b := by
  intro l
  induction l with
  | nil => intro b; rfl
  | cons x t ih => intro b; simp only [List.foldl_cons]; exact ih b

theorem viterbi_bwd_noarcs (S : SR α) (F : FSA σ κ α) (hδ : F.δ = []) :
    viterbi_bwd S F = (Flist S F).foldl (fun c qw => dset c qw.1 qw.2) [] := by
  unfold viterbi_bwd
  have hbody : (fun (c : Dict σ α) (p : σ) => (arcs S F p false).foldl (fun c ajw =>
      dmod c p S.zero (fun old => S.add old (S.mul ajw.2.2 (dget c ajw.2.1 S.zero)))) c)
      = fun c _ => c := by
    funext c p
    rw [arcs_empty_delta S F hδ p false]
    rfl
  rw [hbody, foldl_id]

theorem filter_eps1_eps2 (qf : FilterState) :
    epsilon_filter (Sym.eps1 : Sym κ) Sym.eps2 qf = FilterState.bot := by
  cases qf <;> rfl

theorem filter_letter_eps2 (c : κ) (qf : FilterState) :
    epsilon_filter (Sym.letter c) Sym.eps2 qf = FilterState.bot := by
  cases qf <;> rfl

/-- When the right state has no outgoing arcs and the left state's arcs are
all letter-labelled, the filter admits no pair at all. -/
theorem interM_nil (S : SR α) (F1 : FSA σ1 κ α) (F2 : FSA σ2 κ α)
    (q1 : σ1) (q2 : σ2) (qf : FilterState)
    (h2 : arcs S F2 q2 false = [])
    (h1 : ∀ e ∈ arcs S F1 q1 false, isLetter e.1 = true) :
    interM S F1 F2 q1 q2 qf = [] := by
  unfold interM interE2
  rw [h2]
  simp only [List.map_nil, List.nil_append]
  unfold interE1
  rw [List.flatMap_append]
  have hpad : ([(Sym.eps1, q1, S.one)] : List (Sym κ × σ1 × α)).flatMap
      (fun e1 => ([(Sym.eps2, q2, S.one)] : List (Sym κ × σ2 × α)).filterMap
        (fun e2 => if epsilon_filter e1.1 e2.1 qf = FilterState.bot then none
                   else some (e1, e2))) = [] := by
    simp [List.filterMap, filter_eps1_eps2]
  rw [hpad, List.append_nil]
  rw [List.flatMap_eq_nil_iff]
  intro e1 he1
  rw [List.mem_map] at he1
  obtain ⟨e, he, rfl⟩ := he1
  obtain ⟨c, hc⟩ : ∃ c, e.1 = Sym.letter c := by
    have := h1 e he
    cases hE : e.1 <;> rw [hE] at this <;> simp [isLetter] at this
    exact ⟨_, rfl⟩
  have hne : ¬ e.1 = Sym.eps := by rw [hc]; intro h; cases h
  simp only [hne, if_neg, if_false, hc]
  simp [List.filterMap, filter_letter_eps2]

/-- The intersection worklist, when every stacked triple admits no matched
pair: no arcs are emitted, nothing is pushed, and each pop only runs the
final-state handling. -/
theorem interLoop_noM (S : SR α) (F1 : FSA σ1 κ α) (F2 : FSA σ2 κ α) :
    ∀ (stack : List (σ1 × σ2 × FilterState)) (fuel : Nat)
      (acc : FSA (σ1 × σ2) κ α) (visited popped : List (σ1 × σ2 × FilterState)),
      stack.length ≤ fuel →
      (∀ t ∈ stack, interM S F1 F2 t.1 t.2.1 t.2.2 = []) →
      interLoop S F1 F2 fuel acc stack visited popped =
        (stack.foldl (fun acc t =>
          if ¬ dget F1.ρ t.1 S.zero = S.zero ∧ ¬ dget F2.ρ t.2.1 S.zero = S.zero then
            add_F S acc (t.1, t.2.1)
              (S.mul (dget F1.ρ t.1 S.zero) (dget F2.ρ t.2.1 S.zero))
          else acc) acc,
         popped ++ stack) := by
  intro stack
  induction stack with
  | nil =>
    intro fuel acc visited popped _ _
    cases fuel <;> simp [interLoop]
  | cons t rest ih =>
    intro fuel acc visited popped hlen hM
    cases fuel with
    | zero => simp at hlen
    | succ n =>
      have hstep : interStep S F1 F2 acc rest visited t.1 t.2.1 t.2.2 =
          (if ¬ dget F1.ρ t.1 S.zero = S.zero ∧ ¬ dget F2.ρ t.2.1 S.zero = S.zero then
            add_F S acc (t.1, t.2.1)
              (S.mul (dget F1.ρ t.1 S.zero) (dget F2.ρ t.2.1 S.zero))
          else acc, rest, visited) := by
        unfold interStep
        rw [hM t (List.mem_cons_self _ _)]
        simp only [List.foldl_nil]
        by_cases hc : ¬ dget F1.ρ t.1 S.zero = S.zero ∧ ¬ dget F2.ρ t.2.1 S.zero = S.zero <;>
          simp [hc]

      show interLoop S F1 F2 (n + 1) acc (t :: rest) visited popped = _
      rw [show interLoop S F1 F2 (n + 1) acc (t :: rest) visited popped =
          (let r := interStep S F1 F2 acc rest visited t.1 t.2.1 t.2.2
           interLoop S F1 F2 n r.1 r.2.1 r.2.2 (popped ++ [t])) from rfl]
      rw [hstep]
      rw [ih n _ _ _ (by simpa using Nat.le_of_succ_le_succ hlen)
        (fun t' ht' => hM t' (List.mem_cons_of_mem t ht'))]
      simp [List.foldl_cons]

/-- The initial-product fold of `intersect` (right machine = the one-state
straight-line automaton): each `add_I` materialises a fresh pair state and a
fresh chart entry. -/
theorem addI_fold_char (S : SR α) :
    ∀ (L : List (σ × α)) (acc : FSA (σ × Nat) κ α),
      ((L.map (fun qw => (qw.1, (0 : Nat)))).Nodup) →
      (∀ qw ∈ L, ((qw.1, (0 : Nat))) ∉ acc.Q) →
      (∀ qw ∈ L, ((qw.1, (0 : Nat))) ∉ acc.lam.map Prod.fst) →
      L.foldl (fun acc qw => add_I S acc (qw.1, 0) (S.mul qw.2 S.one)) acc =
        { acc with
          Q := acc.Q ++ L.map (fun qw => (qw.1, 0)),
          lam := acc.lam ++ L.map (fun qw =>
            ((qw.1, 0), S.add S.zero (S.mul qw.2 S.one))) } := by
  intro L
  induction L with
  | nil => intro acc _ _ _; simp
  | cons qw rest ih =>
    intro acc hN hQ hlam
    have hNc : ((qw.1, (0 : Nat)) ∉ rest.map (fun qw => (qw.1, (0 : Nat)))) ∧
        (rest.map (fun qw => (qw.1, (0 : Nat)))).Nodup := by
      rw [List.map_cons, List.nodup_cons] at hN
      exact hN
    simp only [List.foldl_cons]
    have hstep : add_I S acc (qw.1, 0) (S.mul qw.2 S.one) =
        { acc with Q := acc.Q ++ [(qw.1, 0)],
                   lam := acc.lam ++ [((qw.1, 0), S.add S.zero (S.mul qw.2 S.one))] } := by
      simp only [add_I, add_state]
      rw [if_neg (hQ qw (List.mem_cons_self _ _))]
      simp only [dmod, dget]
      rw [dlook_of_not_mem (hlam qw (List.mem_cons_self _ _))]
      simp only [Option.getD_none]
      rw [dset_of_not_mem (hlam qw (List.mem_cons_self _ _))]
    have hq2 : ∀ qw' ∈ rest, ((qw'.1, (0 : Nat))) ∉ acc.Q ++ [(qw.1, 0)] := by
      intro qw' hqw'
      simp only [List.mem_append, List.mem_singleton, not_or]
      refine ⟨fun hmem => hQ qw' (List.mem_cons_of_mem qw hqw') hmem, ?_⟩
      intro he
      exact hNc.1 (he ▸ List.mem_map.mpr ⟨qw', hqw', rfl⟩)
    have hl2 : ∀ qw' ∈ rest, ((qw'.1, (0 : Nat))) ∉
        (acc.lam ++ [((qw.1, 0), S.add S.zero (S.mul qw.2 S.one))]).map Prod.fst := by
      intro qw' hqw'
      simp only [List.map_append, List.mem_append, not_or]
      refine ⟨fun hmem => hlam qw' (List.mem_cons_of_mem qw hqw') hmem, ?_⟩
      intro hmem
      simp only [List.map_cons, List.map_nil, List.mem_singleton] at hmem
      exact hNc.1 (hmem ▸ List.mem_map.mpr ⟨qw', hqw', rfl⟩)
    rw [hstep, ih _ hNc.2 hq2 hl2]
    simp

/-- The final-state handling fold of the drained worklist: each popped pair
whose two halves are final gets a fresh `ρ` entry. -/
theorem addF_fold_char (S : SR α) (g : σ → α) (v2 : α) :
    ∀ (L : List (σ × α)) (acc : FSA (σ × Nat) κ α),
      ((L.map (fun qw => (qw.1, (0 : Nat)))).Nodup) →
      (∀ qw ∈ L, ((qw.1, (0 : Nat))) ∈ acc.Q) →
      (∀ qw ∈ L, ((qw.1, (0 : Nat))) ∉ acc.ρ.map Prod.fst) →
      L.foldl (fun acc qw =>
        if ¬ g qw.1 = S.zero ∧ ¬ v2 = S.zero then
          add_F S acc (qw.1, 0) (S.mul (g qw.1) v2)
        else acc) acc =
      { acc with ρ := acc.ρ ++ List.map (fun qw => ((qw.1, 0), S.add S.zero (S.mul (g qw.1) v2))) (L.filter (fun qw => decide (¬ g qw.1 = S.zero ∧ ¬ v2 = S.zero))) } := by
  intro L
  induction L with
  | nil => intro acc _ _ _; simp
  | cons qw rest ih =>
    intro acc hN hQ hρ
    have hNc : ((qw.1, (0 : Nat)) ∉ rest.map (fun qw => (qw.1, (0 : Nat)))) ∧
        (rest.map (fun qw => (qw.1, (0 : Nat)))).Nodup := by
      rw [List.map_cons, List.nodup_cons] at hN
      exact hN
    simp only [List.foldl_cons]
    by_cases hc : ¬ g qw.1 = S.zero ∧ ¬ v2 = S.zero
    · rw [if_pos hc]
      have hstep : add_F S acc (qw.1, 0) (S.mul (g qw.1) v2) =
          { acc with ρ := acc.ρ ++ [((qw.1, 0), S.add S.zero (S.mul (g qw.1) v2))] } := by
        simp only [add_F, add_state]
        rw [if_pos (hQ qw (List.mem_cons_self _ _))]
        simp only [dmod, dget]
        rw [dlook_of_not_mem (hρ qw (List.mem_cons_self _ _))]
        simp only [Option.getD_none]
        rw [dset_of_not_mem (hρ qw (List.mem_cons_self _ _))]
      have hq2 : ∀ qw' ∈ rest, ((qw'.1, (0 : Nat))) ∈ acc.Q :=
        fun qw' hqw' => hQ qw' (List.mem_cons_of_mem qw hqw')
      have hr2 : ∀ qw' ∈ rest, ((qw'.1, (0 : Nat))) ∉
          (acc.ρ ++ [((qw.1, 0), S.add S.zero (S.mul (g qw.1) v2))]).map Prod.fst := by
        intro qw' hqw'
        simp only [List.map_append, List.mem_append, not_or]
        refine ⟨fun hmem => hρ qw' (List.mem_cons_of_mem qw hqw') hmem, ?_⟩
        intro hmem
        simp only [List.map_cons, List.map_nil, List.mem_singleton] at hmem
        exact hNc.1 (hmem ▸ List.mem_map.mpr ⟨qw', hqw', rfl⟩)
      rw [hstep, ih { acc with ρ := acc.ρ ++ [((qw.1, 0), S.add S.zero (S.mul (g qw.1) v2))] }
        hNc.2 hq2 hr2]
      rw [List.filter_cons_of_pos (by simpa using hc)]
      simp
    · rw [if_neg hc]
      rw [ih _ hNc.2 (fun qw' hqw' => hQ qw' (List.mem_cons_of_mem qw hqw'))
        (fun qw' hqw' => hρ qw' (List.mem_cons_of_mem qw hqw'))]
      rw [List.filter_cons_of_neg (by simpa using hc)]

end AcceptLemmas

open FSA Pathsum

/-- C1: `FSA.determinize` never returns an automaton: the loop body's
attribute lookup `Transformer.powerarcs` fails (`transformer.py` defines only
`_powerarcs`), and the initial stack `[QI]` is never empty, so every call —
in particular the failing input `detEx` — raises `AttributeError` instead of
producing a deterministic, pathsum-preserving automaton. -/
theorem C1_determinize_attribute_error {σ κ α : Type}
    [DecidableEq σ] [DecidableEq κ] [DecidableEq α] (S : SR α) (F : FSA σ κ α) :
    determinize S F = Except.error Err.attrError := rfl

/-- C2, counterexample: on the tropical example of fsa.py's `__main__`, the
Dijkstra forward chart does *not* equal the Bellman-Ford forward chart (they
already differ at state 1), and `pathsum(LEHMANN)` is not the value 6 the
spec asserts — so the claim's conjunction fails at this concrete input. -/
theorem C2_counterexample :
    ¬ ((Pathsum.dijkstra_fwd Trop tropEx none 50).map (fun c => dget c 1 Trop.zero)
          = (Pathsum.bellmanford_fwd Trop tropEx none).map (fun c => dget c 1 Trop.zero)
        ∧ FSA.pathsumF Trop tropEx Strategy.LEHMANN 50 = .ok (some 6)) := by
  decide

set_option maxRecDepth 8000 in
/-- C2, amended: on the tropical example, `dijkstra_fwd` yields the chart
{0↦0, 1↦1, 2↦2, 3↦6} while `bellmanford_fwd` yields {0↦0, 1↦0, 2↦2, 3↦5}
(Dijkstra mishandles the negative arc 2─d/−2→1), and
`pathsum(LEHMANN) = pathsum(JOHNSON) = 5` — the value of the spec's own
parenthetical derivation, not 6. -/
theorem C2_amended :
    Pathsum.dijkstra_fwd Trop tropEx none 50
        = .ok [(0, some 0), (1, some 1), (2, some 2), (3, some 6)] ∧
    Pathsum.bellmanford_fwd Trop tropEx none
        = .ok [(0, some 0), (1, some 0), (2, some 2), (3, some 5)] ∧
    FSA.pathsumF Trop tropEx Strategy.LEHMANN 50 = .ok (some 5) ∧
    FSA.pathsumF Trop tropEx Strategy.JOHNSON 50 = .ok (some 5) := by
  refine ⟨by decide, by decide, by decide, by decide⟩

/-- C3: at the failing input (Real semiring; left machine = one initial+final
state with an `ε` self-loop, right machine = one initial+final state), the
product final state `(0, 0)` receives final weight `2` — the pair is popped
under both filter states `0` and `1` and `add_F` re-adds `ρ₁(0) ⊗ ρ₂(0)`
each time — whereas the claim (and spec) require exactly
`ρ₁(0) ⊗ ρ₂(0) = 1`. -/
theorem C3_final_weight_doubled :
    (intersect IntSR interExL interExR).ρ = [((0, 0), 2)] ∧
    IntSR.mul (dget interExL.ρ 0 IntSR.zero) (dget interExR.ρ 0 IntSR.zero) = 1 := by
  refine ⟨by decide, by decide⟩

/-- C4: for every acyclic WFSA and *every* requested strategy, the engine
(`FSA.pathsum` / `forward` / `backward`, fsa.py:419-433) overrides the
strategy with Viterbi and succeeds, returning the Viterbi pathsum/charts —
even when the requested strategy's own precondition is unmet. -/
theorem C4_acyclic_dispatch {σ κ α : Type}
    [DecidableEq σ] [DecidableEq κ] [DecidableEq α] (S : SR α) (F : FSA σ κ α)
    (s : Strategy) (fuel : Nat) (h : acyclic S F = true) :
    pathsumF S F s fuel = .ok (viterbi_pathsum S F false) ∧
    forwardF S F s fuel = .ok (viterbi_fwd S F) ∧
    backwardF S F s fuel = .ok (viterbi_bwd S F) := by
  simp [pathsumF, forwardF, backwardF, h, Pathsum.pathsum, Pathsum.forward, Pathsum.backward]

/-- C4, witness: the acyclic Real-semiring automaton `acycEx` with the
Dijkstra strategy (whose superiority precondition fails on this non-superior
semiring). -/
theorem C4_witness :
    acyclic IntSR acycEx = true ∧
    (pathsumF IntSR acycEx Strategy.DIJKSTRA 0
        = .ok (viterbi_pathsum IntSR acycEx false) ∧
      forwardF IntSR acycEx Strategy.DIJKSTRA 0 = .ok (viterbi_fwd IntSR acycEx) ∧
      backwardF IntSR acycEx Strategy.DIJKSTRA 0 = .ok (viterbi_bwd IntSR acycEx)) :=
  ⟨by decide, C4_acyclic_dispatch IntSR acycEx Strategy.DIJKSTRA 0 (by decide)⟩

/-- C5: whenever `F.push()` (backward Lehmann potentials +
`push_with_potential` with its sanity check) returns an automaton at all, that
automaton satisfies the pushed invariant
`(⊕ outgoing) ⊕ ρ'(p) = one` for every state `p`. -/
theorem C5_push_pushed {σ κ α : Type}
    [DecidableEq σ] [DecidableEq κ] [DecidableEq α] (S : SR α) (F P : FSA σ κ α)
    (h : push S F = .ok P) : pushed S P = true := by
  unfold push at h
  obtain ⟨W, _, h2⟩ := exbind_ok h
  unfold Pathsum.push_with_potential at h2
  obtain ⟨pfsa, _, h4⟩ := exbind_ok h2
  by_cases hp : pushed S pfsa
  · simp only [hp, if_true, if_pos] at h4
    cases h4
    exact hp
  · simp [hp] at h4

/-- C5, witness: `push` succeeds on the tropical automaton `pushEx` and its
output is pushed. -/
theorem C5_witness : ∃ P, push Trop pushEx = .ok P ∧ pushed Trop P = true :=
  ⟨_, rfl, C5_push_pushed Trop pushEx _ rfl⟩

/-- C6: `bellmanford_fwd` (and `bellmanford_bwd`) performs exactly `N-1`
relaxation rounds (`bfChartFwd`/`bfChartBwd` iterate `List.range (N-1)`), and
then fails — returning no chart — precisely when some edge can still be
relaxed in an `N`-th round; otherwise it returns the chart.  The failure is a
raised error (`Err.negCycle`; the source raises
`AttributeError("Graph contains a negative-weight cycle")`), never silent. -/
theorem C6_bellmanford_negative_cycle {σ κ α : Type}
    [DecidableEq σ] [DecidableEq κ] [DecidableEq α] (S : SR α) (F : FSA σ κ α) :
    (Pathsum.bellmanford_fwd S F none = .error .negCycle ↔
      ∃ p ∈ F.Q, ∃ ajw ∈ arcs S F p false,
        ¬ S.add (dget (bfChartFwd S F none) ajw.2.1 S.zero)
            (S.mul (dget (bfChartFwd S F none) p S.zero) ajw.2.2)
          = dget (bfChartFwd S F none) ajw.2.1 S.zero) ∧
    (Pathsum.bellmanford_fwd S F none = .ok (bfTouchFwd S F (bfChartFwd S F none)) ↔
      ¬ ∃ p ∈ F.Q, ∃ ajw ∈ arcs S F p false,
        ¬ S.add (dget (bfChartFwd S F none) ajw.2.1 S.zero)
            (S.mul (dget (bfChartFwd S F none) p S.zero) ajw.2.2)
          = dget (bfChartFwd S F none) ajw.2.1 S.zero) ∧
    (Pathsum.bellmanford_bwd S F none = .error .negCycle ↔
      ∃ p ∈ F.Q, ∃ ajw ∈ arcs S F p false,
        ¬ S.add (dget (bfChartBwd S F none) p S.zero)
            (S.mul ajw.2.2 (dget (bfChartBwd S F none) ajw.2.1 S.zero))
          = dget (bfChartBwd S F none) p S.zero) ∧
    (Pathsum.bellmanford_bwd S F none = .ok (bfTouchBwd S F (bfChartBwd S F none)) ↔
      ¬ ∃ p ∈ F.Q, ∃ ajw ∈ arcs S F p false,
        ¬ S.add (dget (bfChartBwd S F none) p S.zero)
            (S.mul ajw.2.2 (dget (bfChartBwd S F none) ajw.2.1 S.zero))
          = dget (bfChartBwd S F none) p S.zero) := by
  have hf : bfRelaxableFwd S F (bfChartFwd S F none) = true ↔
      ∃ p ∈ F.Q, ∃ ajw ∈ arcs S F p false,
        ¬ S.add (dget (bfChartFwd S F none) ajw.2.1 S.zero)
            (S.mul (dget (bfChartFwd S F none) p S.zero) ajw.2.2)
          = dget (bfChartFwd S F none) ajw.2.1 S.zero := by
    simp [bfRelaxableFwd, List.any_eq_true, decide_eq_true_eq]
  have hb : bfRelaxableBwd S F (bfChartBwd S F none) = true ↔
      ∃ p ∈ F.Q, ∃ ajw ∈ arcs S F p false,
        ¬ S.add (dget (bfChartBwd S F none) p S.zero)
            (S.mul ajw.2.2 (dget (bfChartBwd S F none) ajw.2.1 S.zero))
          = dget (bfChartBwd S F none) p S.zero := by
    simp [bfRelaxableBwd, List.any_eq_true, decide_eq_true_eq]
  refine ⟨?_, ?_, ?_, ?_⟩
  · rw [← hf]
    unfold Pathsum.bellmanford_fwd
    by_cases h : bfRelaxableFwd S F (bfChartFwd S F none) <;> simp [h]
  · rw [show (¬ ∃ p ∈ F.Q, ∃ ajw ∈ arcs S F p false,
        ¬ S.add (dget (bfChartFwd S F none) ajw.2.1 S.zero)
            (S.mul (dget (bfChartFwd S F none) p S.zero) ajw.2.2)
          = dget (bfChartFwd S F none) ajw.2.1 S.zero)
        = ¬ bfRelaxableFwd S F (bfChartFwd S F none) = true from by rw [hf]]
    unfold Pathsum.bellmanford_fwd
    by_cases h : bfRelaxableFwd S F (bfChartFwd S F none) <;> simp [h]
  · rw [← hb]
    unfold Pathsum.bellmanford_bwd
    by_cases h : bfRelaxableBwd S F (bfChartBwd S F none) <;> simp [h]
  · rw [show (¬ ∃ p ∈ F.Q, ∃ ajw ∈ arcs S F p false,
        ¬ S.add (dget (bfChartBwd S F none) p S.zero)
            (S.mul ajw.2.2 (dget (bfChartBwd S F none) ajw.2.1 S.zero))
          = dget (bfChartBwd S F none) p S.zero)
        = ¬ bfRelaxableBwd S F (bfChartBwd S F none) = true from by rw [hb]]
    unfold Pathsum.bellmanford_bwd
    by_cases h : bfRelaxableBwd S F (bfChartBwd S F none) <;> simp [h]

/-- C9: the acyclicity check explores only states reachable from the initial
states: whenever the reachable part is cycle-free, `FSA.acyclic` returns
`True` (even if unreachable states carry a cycle, as in the witness), and
`toposort` then enumerates only reached — hence reachable — states. -/
theorem C9_acyclic_ignores_unreachable {σ κ α : Type}
    [DecidableEq σ] [DecidableEq κ] [DecidableEq α] (S : SR α) (F : FSA σ κ α)
    (h : ReachCycleFree S F) :
    acyclic S F = true ∧
    (∀ l, toposort S F false = .ok l → ∀ q ∈ l, ReachI S F q) := by
  have hg := dfs_good S F
  have hac : acyclic S F = true := by
    unfold acyclic
    by_cases hc : (dfs S F).1
    · exact absurd ⟨(hg.1 hc).choose, (hg.1 hc).choose_spec⟩ h
    · simp [hc]
  refine ⟨hac, ?_⟩
  intro l hl q hq
  unfold toposort at hl
  rw [hac] at hl
  simp only [if_true, Except.ok.injEq] at hl
  subst hl
  unfold finishOrder at hq
  simp only [Bool.false_eq_true, if_false, List.mem_map] at hq
  obtain ⟨x, hmem, rfl⟩ := hq
  rw [List.mem_reverse] at hmem
  obtain ⟨m, hm⟩ := mem_dlook (mem_sortAsc hmem)
  exact hg.2 _ m hm

/-- C9, witness: `unreachEx` has an unreachable 2-cycle between states 1 and
2; its reachable part ({0}, no arcs) is cycle-free, `acyclic` is `True`, and
`toposort` enumerates only reachable states. -/
theorem C9_witness :
    ReachCycleFree BoolSR unreachEx ∧
    (acyclic BoolSR unreachEx = true ∧
      (∀ l, toposort BoolSR unreachEx false = .ok l →
        ∀ q ∈ l, ReachI BoolSR unreachEx q)) := by
  have hstep0 : ∀ x, ¬ Step BoolSR unreachEx 0 x := by
    rintro x ⟨e, he, _⟩
    have harc : arcs BoolSR unreachEx 0 false = [] := by decide
    rw [harc] at he
    cases he
  have hcf : ReachCycleFree BoolSR unreachEx := by
    rintro ⟨q, ⟨iw, hiw, hrtg⟩, hcyc⟩
    have hIl : Ilist BoolSR unreachEx = [(0, true)] := by decide
    rw [hIl] at hiw
    have hiw0 : iw.1 = 0 := by
      rcases List.mem_cons.mp hiw with h | h
      · rw [h]
      · cases h
    rw [hiw0] at hrtg
    have hq0 : q = 0 := by
      rcases hrtg.cases_head with h | ⟨c, hc, _⟩
      · exact h.symm
      · exact absurd hc (hstep0 c)
    subst hq0
    obtain ⟨c, hc, _⟩ := Relation.TransGen.head'_iff.mp hcyc
    exact hstep0 c hc
  exact ⟨hcf, C9_acyclic_ignores_unreachable BoolSR unreachEx hcf⟩

theorem flatMap_singleton_map {β γ : Type} (l : List β) (g : β → γ) :
    l.flatMap (fun x => [g x]) = l.map g := by
  induction l <;> simp_all

theorem nodup_keys_eq {β γ : Type} {l : List (β × γ)} (h : (l.map Prod.fst).Nodup)
    {a b : β × γ} (ha : a ∈ l) (hb : b ∈ l) (hfst : a.1 = b.1) : a = b := by
  induction l with
  | nil => cases ha
  | cons x t ih =>
    rw [List.map_cons, List.nodup_cons] at h
    rcases List.mem_cons.mp ha with ha1 | ha1 <;> rcases List.mem_cons.mp hb with hb1 | hb1
    · rw [ha1, hb1]
    · exfalso
      apply h.1
      rw [← ha1, hfst]
      exact List.mem_map.mpr ⟨b, hb1, rfl⟩
    · exfalso
      apply h.1
      rw [← hb1, ← hfst]
      exact List.mem_map.mpr ⟨a, ha1, rfl⟩
    · exact ih h.2 ha1 hb1

/-- C10, counterexample: for the Real-semiring automaton `epsAccEx` — a
single `ε`-arc from the initial state 0 to the final state 1 — `accept` on
the empty string is `1` (the ε-labelled accepting path counts), whereas the
claim's empty-string clause `⊕_q λ(q) ⊗ ρ(q)` is `0`; no state is both
initial and final. -/
theorem C10_counterexample :
    accept IntSR epsAccEx [] = .ok 1 ∧
    lamrho_sum IntSR epsAccEx = 0 ∧
    ¬ accept IntSR epsAccEx [] = .ok (lamrho_sum IntSR epsAccEx) := by
  refine ⟨by decide, by decide, by decide⟩

/-- C10, amended: `F.accept(s)` returns a semiring value — the pathsum of the
intersection of `F` with the straight-line automaton of `s` — and for the
empty string on an ε-free automaton (over a nontrivial commutative semiring)
it is `⊕_{q ∈ Q} λ(q) ⊗ ρ(q)`; with ε-arcs present the intersection also
admits the ε-labelled accepting paths, as the counterexample shows. -/
theorem C10_accept {σ κ α : Type} [DecidableEq σ] [DecidableEq κ] [DecidableEq α]
    [CommSemiring α] (st iv : α → Option α) (idem sup : Bool)
    (F : FSA σ κ α) (s : List κ)
    (h01 : (0 : α) ≠ 1)
    (hQN : F.Q.Nodup)
    (hlamN : (F.lam.map Prod.fst).Nodup)
    (hlamQ : ∀ qw ∈ F.lam, qw.1 ∈ F.Q)
    (hfree : EpsFree (SR.ofComm α st iv idem sup) F) :
    accept (SR.ofComm α st iv idem sup) F s =
      pathsumF (SR.ofComm α st iv idem sup)
        (intersect (SR.ofComm α st iv idem sup) F (strFSA (SR.ofComm α st iv idem sup) s))
        Strategy.LEHMANN 0 ∧
    accept (SR.ofComm α st iv idem sup) F [] =
      .ok (lamrho_sum (SR.ofComm α st iv idem sup) F) := by
  refine ⟨rfl, ?_⟩
  set S : SR α := SR.ofComm α st iv idem sup with hS
  have hzero : S.zero = 0 := rfl
  have hone : S.one = 1 := rfl
  have hadd : ∀ a b : α, S.add a b = a + b := fun _ _ => rfl
  have hmul : ∀ a b : α, S.mul a b = a * b := fun _ _ => rfl
  have hsl : strFSA S ([] : List κ) = ⟨[0], [], [], [(0, S.one)], [(0, S.add S.zero S.one)]⟩ := rfl
  have hone_ne : ¬ ((S.one : α) = S.zero) := by
    rw [hone, hzero]; exact fun h => h01 h.symm
  have hρ2 : dget (strFSA S ([] : List κ)).ρ 0 S.zero = S.add S.zero S.one := by rw [hsl]; rfl
  have hv2 : S.add S.zero S.one = 1 := by rw [hadd, hzero, hone, zero_add]
  have hv2_ne : ¬ (S.add S.zero S.one = S.zero) := by
    rw [hv2, hzero]; exact fun h => h01 h.symm
  have hI2 : Ilist S (strFSA S ([] : List κ)) = [(0, S.one)] := by
    rw [hsl]
    show List.filter _ [(0, S.one)] = [(0, S.one)]
    rw [List.filter_cons_of_pos (by simpa using hone_ne)]
    rfl
  set L : List (σ × α) := Ilist S F with hL
  have hLsub : ∀ qw ∈ L, qw ∈ F.lam := fun qw hqw => (List.mem_filter.mp hqw).1
  have hLQ : ∀ qw ∈ L, qw.1 ∈ F.Q := fun qw hqw => hlamQ qw (hLsub qw hqw)
  have hLkeysN : (L.map Prod.fst).Nodup :=
    List.Nodup.sublist (List.Sublist.map Prod.fst (List.filter_sublist _)) hlamN
  have hpairN : (L.map (fun qw => (qw.1, (0 : Nat)))).Nodup := by
    have hmm : (L.map (fun qw => (qw.1, (0 : Nat))))
        = (L.map Prod.fst).map (fun x => (x, (0 : Nat))) := by
      rw [List.map_map]; rfl
    rw [hmm]
    exact List.Nodup.map (fun a b h => congrArg Prod.fst h) hLkeysN
  -- the product automaton
  have hP : intersect S F (strFSA S ([] : List κ)) =
      ⟨L.map (fun qw => (qw.1, 0)), [], [],
       L.map (fun qw => ((qw.1, 0), S.add S.zero (S.mul qw.2 S.one))),
       List.map (fun qw => ((qw.1, 0), S.add S.zero
           (S.mul (dget F.ρ qw.1 S.zero) (S.add S.zero S.one))))
         (L.filter (fun qw => decide (¬ dget F.ρ qw.1 S.zero = S.zero ∧
           ¬ (S.add S.zero S.one) = S.zero)))⟩ := by
    unfold intersect
    simp only [hI2, ← hL]
    have hseeds : L.flatMap (fun qw1 => ([((0 : Nat), S.one)]).map
        (fun qw2 => (qw1.1, qw2.1, FilterState.f0)))
        = L.map (fun qw => (qw.1, (0 : Nat), FilterState.f0)) := by
      simp only [List.map_cons, List.map_nil]
      exact flatMap_singleton_map L _
    rw [hseeds]
    have hacc : L.foldl (fun acc qw1 => ([((0 : Nat), S.one)]).foldl
        (fun acc qw2 => add_I S acc (qw1.1, qw2.1) (S.mul qw1.2 qw2.2)) acc)
        (empty (σ × Nat) κ α)
        = ⟨L.map (fun qw => (qw.1, 0)), [], [],
           L.map (fun qw => ((qw.1, 0), S.add S.zero (S.mul qw.2 S.one))), []⟩ := by
      simp only [List.foldl_cons, List.foldl_nil]
      rw [addI_fold_char S L (empty (σ × Nat) κ α) hpairN
        (by intro qw h; exact List.not_mem_nil _)
        (by intro qw h; exact List.not_mem_nil _)]
      rfl
    rw [hacc]
    rw [interLoop_noM S F (strFSA S ([] : List κ))
      (L.map (fun qw => (qw.1, (0 : Nat), FilterState.f0))) _ _ _ _
      (by
        rw [List.length_map]
        simp only [hI2, hsl, List.length_cons, List.length_nil]
        omega)
      (by
        intro t ht
        rw [List.mem_map] at ht
        obtain ⟨qw, hqw, rfl⟩ := ht
        refine interM_nil S F (strFSA S ([] : List κ)) qw.1 0 FilterState.f0 ?_ ?_
        · exact arcs_empty_delta S (strFSA S ([] : List κ)) (by rw [hsl]) 0 false
        · exact hfree qw.1 (hLQ qw hqw))]
    simp only [List.foldl_map]
    rw [show (fun (acc : FSA (σ × Nat) κ α) (qw : σ × α) =>
        if ¬ dget F.ρ qw.1 S.zero = S.zero ∧
            ¬ dget (strFSA S ([] : List κ)).ρ 0 S.zero = S.zero then
          add_F S acc (qw.1, 0)
            (S.mul (dget F.ρ qw.1 S.zero) (dget (strFSA S ([] : List κ)).ρ 0 S.zero))
        else acc)
      = (fun (acc : FSA (σ × Nat) κ α) (qw : σ × α) =>
        if ¬ dget F.ρ qw.1 S.zero = S.zero ∧ ¬ (S.add S.zero S.one) = S.zero then
          add_F S acc (qw.1, 0)
            (S.mul (dget F.ρ qw.1 S.zero) (S.add S.zero S.one))
        else acc) from by rw [hρ2]]
    rw [addF_fold_char S (fun q => dget F.ρ q S.zero) (S.add S.zero S.one) L _ hpairN
      (by
        intro qw hqw
        exact List.mem_map.mpr ⟨qw, hqw, rfl⟩)
      (by intro qw h; exact List.not_mem_nil _)]
    rfl
  show pathsumF S (intersect S F (strFSA S ([] : List κ))) Strategy.LEHMANN 0 = _
  rw [hP]
  have hacyc := acyclic_noarcs S
    (⟨L.map (fun qw => (qw.1, 0)), [], [],
      L.map (fun qw => ((qw.1, 0), S.add S.zero (S.mul qw.2 S.one))),
      List.map (fun qw => ((qw.1, 0), S.add S.zero
          (S.mul (dget F.ρ qw.1 S.zero) (S.add S.zero S.one))))
        (L.filter (fun qw => decide (¬ dget F.ρ qw.1 S.zero = S.zero ∧
          ¬ (S.add S.zero S.one) = S.zero)))⟩ : FSA (σ × Nat) κ α) rfl
  unfold pathsumF Pathsum.pathsum
  rw [hacyc]
  simp only [if_true, reduceIte]
  congr 1
  -- now the chart arithmetic
  unfold viterbi_pathsum
  simp only [Bool.false_eq_true, if_false, reduceIte]
  rw [viterbi_bwd_noarcs S _ rfl]
  -- the filtered ρ values are the plain final weights
  have hval : ∀ x : α, S.add S.zero (S.mul x (S.add S.zero S.one)) = x := by
    intro x
    rw [hv2, hmul, hadd, hzero, mul_one, zero_add]
  have hcond : ∀ qw : σ × α,
      decide (¬ dget F.ρ qw.1 S.zero = S.zero ∧ ¬ (S.add S.zero S.one) = S.zero)
      = decide (¬ dget F.ρ qw.1 S.zero = S.zero) := by
    intro qw
    simp [hv2_ne]
  simp only [hval, hcond]
  set Lf : List (σ × α) := L.filter (fun qw => decide (¬ dget F.ρ qw.1 S.zero = S.zero))
    with hLf
  have hLfsub : ∀ qw ∈ Lf, qw ∈ L := fun qw hqw => (List.mem_filter.mp hqw).1
  have hLfpairN : (Lf.map (fun qw => (qw.1, (0 : Nat)))).Nodup :=
    List.Nodup.sublist (List.Sublist.map _ (List.filter_sublist _)) hpairN
  -- the β chart is exactly the ρ dict
  have hFlist : Flist S (⟨L.map (fun qw => (qw.1, 0)), [], [],
      L.map (fun qw => ((qw.1, 0), S.add S.zero (S.mul qw.2 S.one))),
      Lf.map (fun qw => ((qw.1, 0), dget F.ρ qw.1 S.zero))⟩ : FSA (σ × Nat) κ α)
      = Lf.map (fun qw => ((qw.1, 0), dget F.ρ qw.1 S.zero)) := by
    show List.filter _ _ = _
    rw [List.filter_eq_self]
    intro kv hkv
    rw [List.mem_map] at hkv
    obtain ⟨qw, hqw, rfl⟩ := hkv
    have := (List.mem_filter.mp hqw).2
    simpa using this
  rw [hFlist]
  rw [dset_foldl_of_nodup _ []
    (by
      have hmm : ((Lf.map (fun qw => ((qw.1, (0 : Nat)), dget F.ρ qw.1 S.zero))).map
          Prod.fst) = Lf.map (fun qw => (qw.1, (0 : Nat))) := by
        rw [List.map_map]; rfl
      rw [hmm]; exact hLfpairN)
    (by intro kv h; exact List.not_mem_nil _)]
  simp only [List.nil_append]
  -- fold to sums
  simp only [hadd, hmul, hzero]
  rw [foldl_add_eq_sum, zero_add, List.map_map]
  unfold lamrho_sum
  simp only [hadd, hmul, hzero]
  rw [foldl_add_eq_sum, zero_add]
  -- per-element values on the left
  have hlamval : ∀ qw ∈ L, dget (L.map (fun qw =>
      ((qw.1, (0 : Nat)), S.add S.zero (S.mul qw.2 S.one)))) (qw.1, 0) (0 : α)
      = qw.2 := by
    intro qw hqw
    unfold dget
    have hmemb : ((qw.1, (0 : Nat)), S.add S.zero (S.mul qw.2 S.one))
        ∈ L.map (fun qw => ((qw.1, (0 : Nat)), S.add S.zero (S.mul qw.2 S.one))) :=
      List.mem_map.mpr ⟨qw, hqw, rfl⟩
    have hnd : ((L.map (fun qw => ((qw.1, (0 : Nat)), S.add S.zero (S.mul qw.2 S.one)))).map
        Prod.fst).Nodup := by
      have hmm : ((L.map (fun qw => ((qw.1, (0 : Nat)), S.add S.zero (S.mul qw.2 S.one)))).map
          Prod.fst) = L.map (fun qw => (qw.1, (0 : Nat))) := by
        rw [List.map_map]; rfl
      rw [hmm]; exact hpairN
    rw [dlook_of_mem_nodup hnd hmemb]
    rw [Option.getD_some, hmul, hadd, hzero, hone, mul_one, zero_add]
  have hβval : ∀ qw ∈ L, dget (Lf.map (fun qw =>
      ((qw.1, (0 : Nat)), dget F.ρ qw.1 S.zero))) (qw.1, 0) (0 : α)
      = dget F.ρ qw.1 S.zero ∨
      (dget (Lf.map (fun qw => ((qw.1, (0 : Nat)), dget F.ρ qw.1 S.zero))) (qw.1, 0) (0 : α)
        = 0 ∧ dget F.ρ qw.1 S.zero = 0) := by
    intro qw hqw
    by_cases hc : ¬ dget F.ρ qw.1 S.zero = S.zero
    · left
      have hmemb : ((qw.1, (0 : Nat)), dget F.ρ qw.1 S.zero)
          ∈ Lf.map (fun qw => ((qw.1, (0 : Nat)), dget F.ρ qw.1 S.zero)) :=
        List.mem_map.mpr ⟨qw, List.mem_filter.mpr ⟨hqw, by simpa using hc⟩, rfl⟩
      have hnd : ((Lf.map (fun qw => ((qw.1, (0 : Nat)), dget F.ρ qw.1 S.zero))).map
          Prod.fst).Nodup := by
        have hmm : ((Lf.map (fun qw => ((qw.1, (0 : Nat)), dget F.ρ qw.1 S.zero))).map
            Prod.fst) = Lf.map (fun qw => (qw.1, (0 : Nat))) := by
          rw [List.map_map]; rfl
        rw [hmm]; exact hLfpairN
      have hlook : dlook (Lf.map (fun qw => ((qw.1, (0 : Nat)), dget F.ρ qw.1 S.zero)))
          (qw.1, 0) = some (dget F.ρ qw.1 S.zero) := dlook_of_mem_nodup hnd hmemb
      show (dlook (Lf.map (fun qw => ((qw.1, (0 : Nat)), dget F.ρ qw.1 S.zero)))
          (qw.1, 0)).getD (0 : α) = dget F.ρ qw.1 S.zero
      rw [hlook, Option.getD_some]
    · right
      rw [hzero] at hc
      refine ⟨?_, not_not.mp hc⟩
      have hnotmem : (qw.1, (0 : Nat)) ∉ (Lf.map (fun qw =>
          ((qw.1, (0 : Nat)), dget F.ρ qw.1 S.zero))).map Prod.fst := by
        intro hmem
        have hmm : ((Lf.map (fun qw => ((qw.1, (0 : Nat)), dget F.ρ qw.1 S.zero))).map
            Prod.fst) = Lf.map (fun qw => (qw.1, (0 : Nat))) := by
          rw [List.map_map]; rfl
        rw [hmm] at hmem
        rw [List.mem_map] at hmem
        obtain ⟨qw', hqw', hkey⟩ := hmem
        have hq1 : qw'.1 = qw.1 := (Prod.mk.inj hkey).1
        have hqq : qw' = qw := nodup_keys_eq hLkeysN (hLfsub qw' hqw') hqw hq1
        rw [hqq] at hqw'
        exact hc (by simpa [hzero] using (List.mem_filter.mp hqw').2)
      show (dlook (Lf.map (fun qw => ((qw.1, (0 : Nat)), dget F.ρ qw.1 S.zero)))
          (qw.1, 0)).getD (0 : α) = 0
      rw [dlook_of_not_mem hnotmem, Option.getD_none]
  -- turn the product sum into a sum over L
  have hsum1 : (L.map ((fun x : σ × Nat =>
        dget (L.map (fun qw => ((qw.1, (0 : Nat)), S.add S.zero (S.mul qw.2 S.one)))) x 0 *
        dget (Lf.map (fun qw => ((qw.1, (0 : Nat)), dget F.ρ qw.1 S.zero))) x 0) ∘
        (fun qw => (qw.1, (0 : Nat))))).sum
      = (L.map (fun qw => qw.2 * dget F.ρ qw.1 (0 : α))).sum := by
    apply congrArg
    apply List.map_congr_left
    intro qw hqw
    simp only [Function.comp_apply]
    rw [hlamval qw hqw]
    rcases hβval qw hqw with h | ⟨h1, h2⟩
    · rw [h, hzero]
    · have h2' : dget F.ρ qw.1 (0 : α) = 0 := h2
      rw [h1, h2', mul_zero]
  refine hsum1.trans ?_
  -- compare with the sum over Q
  rw [sum_eq_sum_sublist hQN hLkeysN
    (by
      intro b hb
      rw [List.mem_map] at hb
      obtain ⟨qw, hqw, rfl⟩ := hb
      exact hLQ qw hqw)
    (fun q => dget F.lam q (0 : α) * dget F.ρ q (0 : α))
    (by
      intro q hq hnot
      cases hdl : dlook F.lam q with
      | none =>
        show (dlook F.lam q).getD 0 * (dlook F.ρ q).getD 0 = 0
        rw [hdl, Option.getD_none, zero_mul]
      | some v =>
        by_cases hv : v = 0
        · show (dlook F.lam q).getD 0 * (dlook F.ρ q).getD 0 = 0
          rw [hdl, Option.getD_some, hv, zero_mul]
        · exfalso
          apply hnot
          have hmem : (q, v) ∈ L := by
            rw [hL]
            unfold Ilist
            refine List.mem_filter.mpr ⟨dlook_mem hdl, ?_⟩
            simpa [hzero] using hv
          exact List.mem_map.mpr ⟨(q, v), hmem, rfl⟩)]
  rw [List.map_map]
  apply congrArg
  apply List.map_congr_left
  intro qw hqw
  simp only [Function.comp_apply]
  have : dget F.lam qw.1 (0 : α) = qw.2 := by
    unfold dget
    rw [dlook_of_mem_nodup hlamN (hLsub qw hqw), Option.getD_some]
  rw [this]

/-- C10, witness for the amended claim: the ε-free one-arc automaton
`acycEx` over the integer-weighted Real semiring. -/
theorem C10_witness :
    ((0 : ℤ) ≠ 1 ∧ acycEx.Q.Nodup ∧ (acycEx.lam.map Prod.fst).Nodup ∧
      (∀ qw ∈ acycEx.lam, qw.1 ∈ acycEx.Q) ∧ EpsFree IntSR acycEx) ∧
    (accept IntSR acycEx [] = .ok (lamrho_sum IntSR acycEx)) :=
  ⟨⟨by decide, by decide, by decide, by decide, by unfold EpsFree; decide⟩,
    (C10_accept intStar intInv false false acycEx [] (by decide) (by decide) (by decide)
      (by decide) (by unfold EpsFree; decide)).2⟩

/-- C8: the declared-but-unimplemented operations (`FSA.equivalent`,
`Pathsum.dijkstra_early`, `Pathsum.fixpoint`) fail with the not-supported
error for every input, and consequently `Pathsum.pathsum(DIJKSTRA)` fails for
every automaton over a superior semiring (the dispatcher's superiority assert
passes and `dijkstra_early` raises). -/
theorem C8_not_supported {σ κ α : Type}
    [DecidableEq σ] [DecidableEq κ] [DecidableEq α] (S : SR α) (F G : FSA σ κ α)
    (fuel : Nat) (hsup : S.superior = true) :
    equivalent S F G = .error .notImpl ∧
    Pathsum.dijkstra_early S F = .error .notImpl ∧
    Pathsum.fixpoint S F = .error .notImpl ∧
    Pathsum.pathsum S F Strategy.DIJKSTRA fuel = .error .notImpl := by
  simp [equivalent, Pathsum.dijkstra_early, Pathsum.fixpoint, Pathsum.pathsum, hsup]

/-- C8, witness: the superior tropical semiring with the `__main__` example
automaton. -/
theorem C8_witness :
    Trop.superior = true ∧
    (equivalent Trop tropEx tropEx = .error .notImpl ∧
      Pathsum.dijkstra_early Trop tropEx = .error .notImpl ∧
      Pathsum.fixpoint Trop tropEx = .error .notImpl ∧
      Pathsum.pathsum Trop tropEx Strategy.DIJKSTRA 0 = .error .notImpl) :=
  ⟨rfl, C8_not_supported Trop tropEx tropEx 0 rfl⟩

/-! ### CFG lemmas (for C7) -/

section CFGLemmas

open CFG

variable {κ α : Type} [DecidableEq κ] [DecidableEq α] [CommSemiring α]

theorem ntsOk_mem {f : Nat → Bool} {body : List (GSym κ)} (h : ntsOk f body = true)
    {Y : Nat} (hY : GSym.nt Y ∈ body) : f Y = true := by
  have h2 := List.all_eq_true.mp h _ hY
  simpa using h2

theorem binBody_cases {body : List (GSym κ)} (h : binBody body = true) :
    (∃ a, body = [GSym.term a]) ∨ body = [GSym.geps] ∨
    ∃ Y Z, body = [GSym.nt Y, GSym.nt Z] := by
  rcases body with _ | ⟨g, rest⟩
  · simp [binBody] at h
  rcases g with Y | a | _
  · rcases rest with _ | ⟨g2, rest2⟩
    · simp [binBody] at h
    rcases g2 with Z | b | _
    · rcases rest2 with _ | ⟨g3, rest3⟩
      · exact .inr (.inr ⟨Y, Z, rfl⟩)
      · simp [binBody] at h
    · simp [binBody] at h
    · simp [binBody] at h
  · rcases rest with _ | ⟨g2, rest2⟩
    · exact .inl ⟨a, rfl⟩
    · simp [binBody] at h
  · rcases rest with _ | ⟨g2, rest2⟩
    · exact .inr (.inl rfl)
    · simp [binBody] at h

theorem binBody_len {body : List (GSym κ)} (h : binBody body = true) :
    body.length = 1 ∨ body.length = 2 := by
  rcases binBody_cases h with ⟨a, h'⟩ | h' | ⟨Y, Z, h'⟩ <;> rw [h'] <;> simp

theorem foldl_fixed_mem {β γ : Type} (step : β → γ → β) :
    ∀ (l : List γ) (b : β), (∀ c x, x ∈ l → step c x = c) → l.foldl step b = b := by
  intro l
  induction l with
  | nil => intro b _; rfl
  | cons x t ih =>
    intro b h
    rw [List.foldl_cons, h b x (List.mem_cons_self _ _)]
    exact ih b (fun c y hy => h c y (List.mem_cons_of_mem _ hy))

theorem sum_map_flatMap {β γ : Type} (l : List β) (f : β → List γ) (g : γ → α) :
    ((l.flatMap f).map g).sum = (l.map (fun x => ((f x).map g).sum)).sum := by
  induction l with
  | nil => rfl
  | cons x t ih => simp [List.flatMap_cons, ih]

theorem filter_flatMap_head {β : Type} (f : Nat × β → List (Nat × β)) (X : Nat) :
    ∀ l : List (Nat × β), (∀ p ∈ l, ∀ q ∈ f p, q.1 = p.1) →
    (l.flatMap f).filter (fun q => q.1 = X) = (l.filter (fun p => p.1 = X)).flatMap f := by
  intro l
  induction l with
  | nil => intro _; rfl
  | cons p t ih =>
    intro hf
    have iht := ih (fun r hr => hf r (List.mem_cons_of_mem _ hr))
    have hfp := hf p (List.mem_cons_self _ _)
    by_cases hpx : p.1 = X
    · rw [List.flatMap_cons, List.filter_append, iht,
        List.filter_cons_of_pos (by simpa using hpx), List.flatMap_cons]
      congr 1
      refine List.filter_eq_self.mpr ?_
      intro q hq
      simpa using (hfp q hq).trans hpx
    · rw [List.flatMap_cons, List.filter_append, iht,
        List.filter_cons_of_neg (by simpa using hpx)]
      have hnil : (f p).filter (fun q => q.1 = X) = [] := by
        refine List.filter_eq_nil_iff.mpr ?_
        intro q hq
        simpa using fun h => hpx ((hfp q hq).symm.trans h)
      rw [hnil, List.nil_append]

theorem sum_single_nonzero {β : Type} [DecidableEq β] :
    ∀ (l : List β), l.Nodup → ∀ (x : β), x ∈ l → ∀ (g : β → α),
      (∀ y ∈ l, y ≠ x → g y = 0) → (l.map g).sum = g x := by
  intro l
  induction l with
  | nil => intro _ x hx; cases hx
  | cons a t ih =>
    intro hN x hx g hz
    rcases List.mem_cons.mp hx with h | h
    · have hzt : ((t.map g)).sum = 0 := by
        refine List.sum_eq_zero ?_
        intro v hv
        rw [List.mem_map] at hv
        obtain ⟨y, hy, rfl⟩ := hv
        refine hz y (List.mem_cons_of_mem _ hy) ?_
        intro he
        rw [he, h] at hy
        exact (List.nodup_cons.mp hN).1 hy
      rw [List.map_cons, List.sum_cons, hzt, add_zero, h]
    · have hax : a ≠ x := by
        intro he
        exact (List.nodup_cons.mp hN).1 (by rw [he]; exact h)
      rw [List.map_cons, List.sum_cons, hz a (List.mem_cons_self _ _) hax, zero_add]
      exact ih (List.nodup_cons.mp hN).2 x h g (fun y hy => hz y (List.mem_cons_of_mem _ hy))

theorem sum_map_filterMap {β γ : Type} (l : List β) (h : β → Option γ) (g : γ → α) :
    ((l.filterMap h).map g).sum
      = (l.map (fun x => ((h x).map g).getD 0)).sum := by
  induction l with
  | nil => rfl
  | cons x t ih =>
    cases hx : h x with
    | none => simp [List.filterMap_cons, hx, ih]
    | some q => simp [List.filterMap_cons, hx, ih]

theorem nodup_flatMap_map {β γ δ : Type} (A : List β) (B : List γ) (f : β → γ → δ)
    (hA : A.Nodup) (hB : B.Nodup)
    (hinj : ∀ a a' b b', f a b = f a' b' → a = a' ∧ b = b') :
    (A.flatMap (fun a => B.map (f a))).Nodup := by
  induction A with
  | nil => exact List.nodup_nil
  | cons a t ih =>
    rw [List.flatMap_cons]
    have htn := (List.nodup_cons.mp hA).2
    refine List.Nodup.append ?_ (ih htn) ?_
    · exact List.Nodup.map (fun b b' hbb => (hinj a a b b' hbb).2) hB
    · intro x hx1 hx2
      rw [List.mem_map] at hx1
      obtain ⟨b, hb, rfl⟩ := hx1
      rw [List.mem_flatMap] at hx2
      obtain ⟨a', ha', hx2⟩ := hx2
      rw [List.mem_map] at hx2
      obtain ⟨b', hb', he⟩ := hx2
      have := (hinj a' a b' b he).1
      exact (List.nodup_cons.mp hA).1 (this ▸ ha')

theorem indexOf_inj_nodup {β : Type} [DecidableEq β] :
    ∀ (l : List β), l.Nodup → ∀ a b : β, a ∈ l → b ∈ l →
      l.indexOf a = l.indexOf b → a = b := by
  intro l
  induction l with
  | nil => intro _ a b ha; cases ha
  | cons x t ih =>
    intro hN a b ha hb he
    by_cases hax : a = x
    · by_cases hbx : b = x
      · rw [hax, hbx]
      · rw [hax, List.indexOf_cons_self] at he
        have hbt : b ∈ t := (List.mem_cons.mp hb).resolve_left hbx
        rw [List.indexOf_cons_ne _ (fun h => hbx h.symm)] at he
        exact absurd he.symm (Nat.succ_ne_zero _)
    · by_cases hbx : b = x
      · rw [hbx, List.indexOf_cons_self] at he
        rw [List.indexOf_cons_ne _ (fun h => hax h.symm)] at he
        exact absurd he (Nat.succ_ne_zero _)
      · rw [List.indexOf_cons_ne _ (fun h => hax h.symm),
          List.indexOf_cons_ne _ (fun h => hbx h.symm)] at he
        exact ih (List.nodup_cons.mp hN).2 a b
          ((List.mem_cons.mp ha).resolve_left hax)
          ((List.mem_cons.mp hb).resolve_left hbx)
          (Nat.succ_injective he)

theorem dlook_fold_dset_not_mem (f : Dict Nat α → Nat → α) :
    ∀ (l : List Nat) (T : Dict Nat α) (X : Nat), X ∉ l →
      dlook (l.foldl (fun T Y => dset T Y (f T Y)) T) X = dlook T X := by
  intro l
  induction l with
  | nil => intro T X _; rfl
  | cons a t ih =>
    intro T X hX
    rw [List.foldl_cons, ih _ X (fun h => hX (List.mem_cons_of_mem _ h)), dlook_dset,
      if_neg (fun h => hX (by rw [← h]; exact List.mem_cons_self a t))]

theorem treesumChart_append (S : SR α) (G : CFG κ α) (pre rest : List Nat) :
    treesumChart S G (pre ++ rest)
      = rest.foldl (fun T X => dset T X (headSum S G T X)) (treesumChart S G pre) := by
  unfold CFG.treesumChart
  rw [List.foldl_append]

theorem chart_value_at (S : SR α) (G : CFG κ α) (pre rest : List Nat) (X : Nat)
    (hX : X ∉ rest) :
    dget (treesumChart S G (pre ++ X :: rest)) X S.zero
      = headSum S G (treesumChart S G pre) X := by
  rw [treesumChart_append]
  unfold dget
  rw [List.foldl_cons, dlook_fold_dset_not_mem _ rest _ X hX, dlook_dset, if_pos rfl]
  rfl

theorem chart_prefix_agree (S : SR α) (G : CFG κ α) (pre rest : List Nat) (Y : Nat)
    (hY : Y ∉ rest) :
    dget (treesumChart S G (pre ++ rest)) Y S.zero = dget (treesumChart S G pre) Y S.zero := by
  unfold dget
  rw [treesumChart_append, dlook_fold_dset_not_mem _ rest _ Y hY]

theorem headSum_eq_sum (S : SR α) (hz : S.zero = 0)
    (ha : ∀ a b : α, S.add a b = a + b) (hm : ∀ a b : α, S.mul a b = a * b)
    (G : CFG κ α) (T : Dict Nat α) (X : Nat) :
    headSum S G T X
      = ((G.P.filter (fun p => p.1 = X)).map
          (fun p => p.2.2 * bodyWeight S T p.2.1)).sum := by
  unfold CFG.headSum
  simp only [ha, hm, hz]
  rw [foldl_add_eq_sum, zero_add]

theorem bodyWeight_congr (S : SR α) (T1 T2 : Dict Nat α) :
    ∀ body : List (GSym κ),
      (∀ Y, GSym.nt Y ∈ body → dget T1 Y S.zero = dget T2 Y S.zero) →
      bodyWeight S T1 body = bodyWeight S T2 body := by
  intro body
  induction body with
  | nil => intro _; rfl
  | cons g rest ih =>
    intro h
    cases g with
    | nt Y =>
      show S.mul (dget T1 Y S.zero) (bodyWeight S T1 rest)
        = S.mul (dget T2 Y S.zero) (bodyWeight S T2 rest)
      rw [h Y (List.mem_cons_self _ _), ih (fun Z hZ => h Z (List.mem_cons_of_mem _ hZ))]
    | term a =>
      show S.mul S.one (bodyWeight S T1 rest) = S.mul S.one (bodyWeight S T2 rest)
      rw [ih (fun Z hZ => h Z (List.mem_cons_of_mem _ hZ))]
    | geps =>
      show S.mul S.one (bodyWeight S T1 rest) = S.mul S.one (bodyWeight S T2 rest)
      rw [ih (fun Z hZ => h Z (List.mem_cons_of_mem _ hZ))]

theorem headSum_congr (S : SR α) (hz : S.zero = 0)
    (ha : ∀ a b : α, S.add a b = a + b) (hm : ∀ a b : α, S.mul a b = a * b)
    (G : CFG κ α) (T1 T2 : Dict Nat α) (X : Nat)
    (h : ∀ p ∈ G.P, p.1 = X → ∀ Y, GSym.nt Y ∈ p.2.1 →
      dget T1 Y S.zero = dget T2 Y S.zero) :
    headSum S G T1 X = headSum S G T2 X := by
  rw [headSum_eq_sum S hz ha hm, headSum_eq_sum S hz ha hm]
  apply congrArg
  apply List.map_congr_left
  intro p hp
  rw [List.mem_filter] at hp
  rw [bodyWeight_congr S T1 T2 p.2.1 (h p hp.1 (by simpa using hp.2))]

theorem chart_headEq (S : SR α) (hz : S.zero = 0)
    (ha : ∀ a b : α, S.add a b = a + b) (hm : ∀ a b : α, S.mul a b = a * b)
    (G : CFG κ α) (ord : List Nat) (hN : ord.Nodup) (X : Nat) (hX : X ∈ ord)
    (hbody : ∀ p ∈ G.P, p.1 = X → ∀ Y, GSym.nt Y ∈ p.2.1 →
      Y ∈ ord ∧ ord.indexOf Y < ord.indexOf X) :
    dget (treesumChart S G ord) X S.zero = headSum S G (treesumChart S G ord) X := by
  obtain ⟨pre, rest, hsplit⟩ := List.append_of_mem hX
  subst hsplit
  have hnd := hN
  rw [List.nodup_append] at hnd
  obtain ⟨hpreN, hXrN, hdisj⟩ := hnd
  have hXrest : X ∉ rest := (List.nodup_cons.mp hXrN).1
  have hidxX : (pre ++ X :: rest).indexOf X = pre.length := by
    rw [List.indexOf_append_of_not_mem (fun h => hdisj h (List.mem_cons_self _ _)),
      List.indexOf_cons_self, Nat.add_zero]
  rw [chart_value_at S G pre rest X hXrest]
  refine (headSum_congr S hz ha hm G _ _ X ?_).symm
  intro p hp hpX Y hY
  obtain ⟨hYo, hYlt⟩ := hbody p hp hpX Y hY
  rw [hidxX] at hYlt
  have hYpre : Y ∈ pre := by
    by_contra hYnp
    rw [List.indexOf_append_of_not_mem hYnp] at hYlt
    omega
  have hYnr : Y ∉ X :: rest := fun h => hdisj hYpre h
  exact chart_prefix_agree S G pre (X :: rest) Y hYnr

theorem chart_rel3 (S : SR α) (hz : S.zero = 0)
    (ha : ∀ a b : α, S.add a b = a + b) (hm : ∀ a b : α, S.mul a b = a * b)
    (Ga Gb Gc : CFG κ α) (ord : List Nat) (hN : ord.Nodup)
    (hba : ∀ p ∈ Ga.P, ∀ Y, GSym.nt Y ∈ p.2.1 → Y ∈ ord ∧ ord.indexOf Y < ord.indexOf p.1)
    (hbb : ∀ p ∈ Gb.P, ∀ Y, GSym.nt Y ∈ p.2.1 → Y ∈ ord ∧ ord.indexOf Y < ord.indexOf p.1)
    (hbc : ∀ p ∈ Gc.P, ∀ Y, GSym.nt Y ∈ p.2.1 → Y ∈ ord ∧ ord.indexOf Y < ord.indexOf p.1)
    (R : Nat → α → α → α → Prop)
    (hstep : ∀ X ∈ ord,
      (∀ Y ∈ ord, ord.indexOf Y < ord.indexOf X →
        R Y (dget (treesumChart S Ga ord) Y S.zero)
          (dget (treesumChart S Gb ord) Y S.zero)
          (dget (treesumChart S Gc ord) Y S.zero)) →
      R X (headSum S Ga (treesumChart S Ga ord) X)
        (headSum S Gb (treesumChart S Gb ord) X)
        (headSum S Gc (treesumChart S Gc ord) X)) :
    ∀ X ∈ ord, R X (dget (treesumChart S Ga ord) X S.zero)
      (dget (treesumChart S Gb ord) X S.zero)
      (dget (treesumChart S Gc ord) X S.zero) := by
  have main : ∀ n X, X ∈ ord → ord.indexOf X = n →
      R X (dget (treesumChart S Ga ord) X S.zero)
        (dget (treesumChart S Gb ord) X S.zero)
        (dget (treesumChart S Gc ord) X S.zero) := by
    intro n
    induction n using Nat.strong_induction_on with
    | _ n ih =>
      intro X hX hidx
      rw [chart_headEq S hz ha hm Ga ord hN X hX
          (fun p hp hpX Y hY => by have h2 := hba p hp Y hY; rwa [hpX] at h2),
        chart_headEq S hz ha hm Gb ord hN X hX
          (fun p hp hpX Y hY => by have h2 := hbb p hp Y hY; rwa [hpX] at h2),
        chart_headEq S hz ha hm Gc ord hN X hX
          (fun p hp hpX Y hY => by have h2 := hbc p hp Y hY; rwa [hpX] at h2)]
      refine hstep X hX ?_
      intro Y hY hYlt
      exact ih (ord.indexOf Y) (hidx ▸ hYlt) Y hY rfl
  exact fun X hX => main (ord.indexOf X) X hX rfl

theorem addStates_char {σ : Type} [DecidableEq σ] :
    ∀ (l : List σ) (F : FSA σ κ α), l.Nodup → (∀ x ∈ l, x ∉ F.Q) →
      l.foldl (fun F q => F.add_state q) F = { F with Q := F.Q ++ l } := by
  intro l
  induction l with
  | nil =>
    intro F _ _
    show F = { F with Q := F.Q ++ [] }
    rw [List.append_nil]
  | cons q t ih =>
    intro F hN hmem
    have hq : q ∉ F.Q := hmem q (List.mem_cons_self _ _)
    have hstep : F.add_state q = { F with Q := F.Q ++ [q] } := by
      unfold FSA.add_state
      rw [if_neg hq]
    have hcond : ∀ x ∈ t, x ∉ F.Q ++ [q] := by
      intro x hx hx2
      rcases List.mem_append.mp hx2 with h | h
      · exact hmem x (List.mem_cons_of_mem _ hx) h
      · rw [List.mem_singleton] at h
        rw [h] at hx
        exact (List.nodup_cons.mp hN).1 hx
    rw [List.foldl_cons, hstep,
      ih ({ F with Q := F.Q ++ [q] }) (List.nodup_cons.mp hN).2 hcond]
    show ({ F with Q := (F.Q ++ [q]) ++ t } : FSA σ κ α) = { F with Q := F.Q ++ q :: t }
    rw [List.append_assoc, List.singleton_append]

theorem unary_fsa_step_id (S : SR α) (F : FSA (Option Nat) κ α)
    (p : Nat × List (GSym κ) × α) (hb : binBody p.2.1 = true) :
    (match p.2.1 with
      | [GSym.nt Y] => FSA.add_arc S F (some Y) Sym.eps (some p.1) p.2.2
      | _ => F) = F := by
  rcases binBody_cases hb with ⟨a, h⟩ | h | ⟨Y, Z, h⟩ <;> rw [h]

theorem make_unary_fsa_char (S : SR α) (G : CFG κ α) (hbin : BinForm G) (hV : G.V.Nodup) :
    CFG.make_unary_fsa S G
      = { Q := G.V.map some ++ [none], Sigma := [], δ := [], lam := [], ρ := [] } := by
  have e1 : CFG.make_unary_fsa S G
      = G.P.foldl (fun F p =>
          match p.2.1 with
          | [GSym.nt Y] => FSA.add_arc S F (some Y) Sym.eps (some p.1) p.2.2
          | _ => F)
        ((G.V.foldl (fun F X => F.add_state (some X))
          (empty (Option Nat) κ α)).add_state none) := rfl
  rw [e1, foldl_fixed_mem _ G.P _ (fun F p hp => unary_fsa_step_id S F p (hbin p hp))]
  have h1 : G.V.foldl (fun F X => F.add_state (some X)) (empty (Option Nat) κ α)
      = { empty (Option Nat) κ α with
          Q := (empty (Option Nat) κ α).Q ++ G.V.map some } := by
    rw [← List.foldl_map]
    exact addStates_char (G.V.map some) _ (List.Nodup.map (Option.some_injective _) hV)
      (fun x _ hx => List.not_mem_nil x hx)
  rw [h1]
  unfold FSA.add_state
  rw [if_neg (fun hmem => by
    rcases List.mem_append.mp hmem with h | h
    · exact List.not_mem_nil _ h
    · rw [List.mem_map] at h
      obtain ⟨y, _, hy⟩ := h
      exact Option.noConfusion hy)]
  show ({ empty (Option Nat) κ α with
      Q := ((empty (Option Nat) κ α).Q ++ G.V.map some) ++ [none] } : FSA (Option Nat) κ α)
    = _
  rw [show (empty (Option Nat) κ α).Q = [] from rfl, List.nil_append]
  rfl

theorem lehmannStep_zero (S : SR α)
    (ha : ∀ a b : α, S.add a b = a + b) (hm : ∀ a b : α, S.mul a b = a * b)
    (s0 : α) (hst : S.star 0 = some s0) (M : Mat α)
    (hM : ∀ i k, M i k = 0) (j : Nat) :
    ∃ M', Pathsum.lehmannStep S M j = .ok M' ∧ ∀ i k, M' i k = 0 := by
  have hsj : S.star (M j j) = some s0 := by rw [hM j j]; exact hst
  refine ⟨fun i k => S.add (M i k) (S.mul (S.mul (M i j) s0) (M j k)), ?_, ?_⟩
  · unfold Pathsum.lehmannStep
    rw [hsj]
  · intro i k
    show S.add (M i k) (S.mul (S.mul (M i j) s0) (M j k)) = 0
    rw [ha, hm, hm, hM i k, hM i j, hM j k, zero_mul, zero_mul, add_zero]

theorem foldlM_lehmann_zero (S : SR α)
    (ha : ∀ a b : α, S.add a b = a + b) (hm : ∀ a b : α, S.mul a b = a * b)
    (s0 : α) (hst : S.star 0 = some s0) :
    ∀ (js : List Nat) (M : Mat α), (∀ i k, M i k = 0) →
      ∃ M', js.foldlM (Pathsum.lehmannStep S) M = .ok M' ∧ ∀ i k, M' i k = 0 := by
  intro js
  induction js with
  | nil => intro M hM; exact ⟨M, rfl, hM⟩
  | cons j t ih =>
    intro M hM
    obtain ⟨M1, h1, hM1⟩ := lehmannStep_zero S ha hm s0 hst M hM j
    obtain ⟨M', h', hM'⟩ := ih M1 hM1
    refine ⟨M', ?_, hM'⟩
    rw [List.foldlM_cons, h1]
    exact h'

theorem lift_zero {σ : Type} [DecidableEq σ] (S : SR α) (F : FSA σ κ α) (hδ : F.δ = []) :
    Pathsum.lift S F = fun _ _ => S.zero := by
  unfold Pathsum.lift
  refine foldl_fixed_mem _ F.Q _ ?_
  intro W p _
  rw [arcs_empty_delta S F hδ p false]
  rfl

theorem dget_pair_table {σ : Type} [DecidableEq σ] (Q : List σ) (hQN : Q.Nodup)
    {v : σ → σ → α} (p q : σ) (hp : p ∈ Q) (hq : q ∈ Q) (d : α) :
    dget (Q.flatMap (fun p => Q.map (fun q => ((p, q), v p q)))) (p, q) d = v p q := by
  have hmem : ((p, q), v p q) ∈ Q.flatMap (fun p => Q.map (fun q => ((p, q), v p q))) :=
    List.mem_flatMap.mpr ⟨p, hp, List.mem_map.mpr ⟨q, hq, rfl⟩⟩
  have hkeys : ((Q.flatMap (fun p => Q.map (fun q => ((p, q), v p q)))).map Prod.fst).Nodup := by
    have hmm : (Q.flatMap (fun p => Q.map (fun q => ((p, q), v p q)))).map Prod.fst
        = Q.flatMap (fun p => Q.map (fun q => (p, q))) := by
      rw [List.map_flatMap]
      exact congrArg Q.flatMap (funext fun p => by rw [List.map_map]; rfl)
    rw [hmm]
    exact nodup_flatMap_map Q Q (fun a b => (a, b)) hQN hQN
      (fun a a' b b' h => ⟨congrArg Prod.fst h, congrArg Prod.snd h⟩)
  unfold dget
  rw [dlook_of_mem_nodup hkeys hmem]
  rfl

theorem lehmann_arcless {σ : Type} [DecidableEq σ] (S : SR α) (hz : S.zero = 0)
    (ho : S.one = 1) (ha : ∀ a b : α, S.add a b = a + b) (hm : ∀ a b : α, S.mul a b = a * b)
    (s0 : α) (hst : S.star 0 = some s0) (F : FSA σ κ α) (hδ : F.δ = []) (hQN : F.Q.Nodup) :
    ∃ W, Pathsum.lehmann S F true = .ok W ∧
      ∀ p ∈ F.Q, ∀ q ∈ F.Q, dget W (p, q) S.zero = if p = q then (1 : α) else 0 := by
  have hM0 : ∀ i k, Pathsum.lift S F i k = 0 := by
    intro i k; rw [lift_zero S F hδ]; exact hz
  obtain ⟨M', hfold, hM'⟩ :=
    foldlM_lehmann_zero S ha hm s0 hst (List.range F.Q.length) (Pathsum.lift S F) hM0
  have hlehm : Pathsum._lehmann S F true
      = .ok (fun i k => if i = k ∧ i < F.Q.length then S.add (M' i k) S.one else M' i k) := by
    simp only [Pathsum._lehmann, hfold]
    rfl
  have hW : Pathsum.lehmann S F true = .ok (F.Q.flatMap (fun p => F.Q.map (fun q =>
      ((p, q), if F.Q.contains p ∧ F.Q.contains q
        then (fun i k => if i = k ∧ i < F.Q.length then S.add (M' i k) S.one else M' i k)
            (Pathsum.idx F p) (Pathsum.idx F q)
        else if p = q ∧ true = true then S.one else S.zero)))) := by
    unfold Pathsum.lehmann
    rw [hlehm]
    rfl
  refine ⟨_, hW, ?_⟩
  intro p hp q hq
  rw [dget_pair_table F.Q hQN p q hp hq]
  have hcp : F.Q.contains p = true := List.elem_eq_true_of_mem hp
  have hcq : F.Q.contains q = true := List.elem_eq_true_of_mem hq
  rw [if_pos ⟨hcp, hcq⟩]
  show (if Pathsum.idx F p = Pathsum.idx F q ∧ Pathsum.idx F p < F.Q.length
      then S.add (M' (Pathsum.idx F p) (Pathsum.idx F q)) S.one
      else M' (Pathsum.idx F p) (Pathsum.idx F q)) = (if p = q then (1 : α) else 0)
  by_cases hpq : p = q
  · subst hpq
    rw [if_pos ⟨rfl, List.indexOf_lt_length.mpr hp⟩, if_pos rfl, hM', ha, ho, zero_add]
  · rw [if_neg (fun h => hpq (indexOf_inj_nodup F.Q hQN p q hp hq h.1)), if_neg hpq, hM']

theorem nullary_sum (S : SR α) (hz : S.zero = 0) (ho : S.one = 1)
    (ha : ∀ a b : α, S.add a b = a + b) (hm : ∀ a b : α, S.mul a b = a * b)
    (Cb : Dict Nat α) :
    ∀ (Ca Ct : Dict Nat α) (X : Nat) (l : List (Nat × List (GSym κ) × α)),
      (∀ p ∈ l, binBody p.2.1 = true) →
      (∀ p ∈ l, p.1 = X → ∀ Y, GSym.nt Y ∈ p.2.1 →
        dget Ca Y S.zero + dget Cb Y S.zero = dget Ct Y S.zero) →
      (((l.filter (fun p => p.1 = X)).flatMap (fun p =>
          match p.2.1 with
          | [Y, Z] =>
              [(p.1, [Y], S.mul p.2.2 (tsv S Cb Z)),
               (p.1, [Z], S.mul p.2.2 (tsv S Cb Y)),
               (p.1, [Y, Z], p.2.2)]
          | [x] => if x = GSym.geps then [] else [(p.1, [x], p.2.2)]
          | _ => [])).map (fun q => q.2.2 * bodyWeight S Ca q.2.1)).sum
        + (((l.filter (fun p => p.2.1.length = 2 ∨ p.2.1 = [GSym.geps])).filter
              (fun p => p.1 = X)).map
            (fun p => p.2.2 * bodyWeight S Cb p.2.1)).sum
      = ((l.filter (fun p => p.1 = X)).map (fun p => p.2.2 * bodyWeight S Ct p.2.1)).sum := by
  intro Ca Ct X l
  induction l with
  | nil => intro _ _; simp
  | cons p t ih =>
    intro hbin hvals
    have ihr := ih (fun q hq => hbin q (List.mem_cons_of_mem _ hq))
      (fun q hq => hvals q (List.mem_cons_of_mem _ hq))
    by_cases hpx : p.1 = X
    · rw [List.filter_cons_of_pos (by simpa using hpx)]
      rcases binBody_cases (hbin p (List.mem_cons_self _ _)) with ⟨a, hb⟩ | hb | ⟨Y, Z, hb⟩
      · -- p : X → a
        have hnp : ¬ (p.2.1.length = 2 ∨ p.2.1 = [GSym.geps]) := by
          rw [hb]; simp
        rw [List.filter_cons_of_neg (by simpa using hnp)]
        rw [List.flatMap_cons, List.map_append, List.sum_append]
        have hexp : (match p.2.1 with
            | [Y, Z] =>
                [(p.1, [Y], S.mul p.2.2 (tsv S Cb Z)),
                 (p.1, [Z], S.mul p.2.2 (tsv S Cb Y)),
                 (p.1, [Y, Z], p.2.2)]
            | [x] => if x = GSym.geps then [] else [(p.1, [x], p.2.2)]
            | _ => ([] : List (Nat × List (GSym κ) × α)))
            = [(p.1, [GSym.term a], p.2.2)] := by
          rw [hb]
          simp
        rw [hexp, List.map_cons, List.sum_cons, List.map_nil, List.sum_nil,
          List.map_cons, List.sum_cons, hb]
        rw [← ihr]
        show (p.2.2 * bodyWeight S Ca [GSym.term a] + 0 + _) + _ = _
        simp only [CFG.bodyWeight, hm, ho]
        ring
      · -- p : X → ε
        have hnp : (p.2.1.length = 2 ∨ p.2.1 = [GSym.geps]) := .inr hb
        rw [List.filter_cons_of_pos (by simpa using hnp),
          List.filter_cons_of_pos (by simpa using hpx)]
        rw [List.flatMap_cons, List.map_append, List.sum_append]
        have hexp : (match p.2.1 with
            | [Y, Z] =>
                [(p.1, [Y], S.mul p.2.2 (tsv S Cb Z)),
                 (p.1, [Z], S.mul p.2.2 (tsv S Cb Y)),
                 (p.1, [Y, Z], p.2.2)]
            | [x] => if x = GSym.geps then [] else [(p.1, [x], p.2.2)]
            | _ => ([] : List (Nat × List (GSym κ) × α)))
            = [] := by
          rw [hb]
          simp
        rw [hexp, List.map_nil, List.sum_nil, List.map_cons, List.sum_cons,
          List.map_cons, List.sum_cons, hb]
        rw [← ihr]
        simp only [CFG.bodyWeight, hm, ho]
        ring
      · -- p : X → Y Z
        have hnp : (p.2.1.length = 2 ∨ p.2.1 = [GSym.geps]) := by
          rw [hb]; simp
        rw [List.filter_cons_of_pos (by simpa using hnp),
          List.filter_cons_of_pos (by simpa using hpx)]
        rw [List.flatMap_cons, List.map_append, List.sum_append]
        have hexp : (match p.2.1 with
            | [Y, Z] =>
                [(p.1, [Y], S.mul p.2.2 (tsv S Cb Z)),
                 (p.1, [Z], S.mul p.2.2 (tsv S Cb Y)),
                 (p.1, [Y, Z], p.2.2)]
            | [x] => if x = GSym.geps then [] else [(p.1, [x], p.2.2)]
            | _ => ([] : List (Nat × List (GSym κ) × α)))
            = ([(p.1, [GSym.nt Y], S.mul p.2.2 (tsv S Cb (GSym.nt Z : GSym κ))),
               (p.1, [GSym.nt Z], S.mul p.2.2 (tsv S Cb (GSym.nt Y : GSym κ))),
               (p.1, [GSym.nt Y, GSym.nt Z], p.2.2)] : List (Nat × List (GSym κ) × α)) := by
          rw [hb]
        rw [hexp]
        have hY := hvals p (List.mem_cons_self _ _) hpx Y (by rw [hb]; exact List.mem_cons_self _ _)
        have hZ := hvals p (List.mem_cons_self _ _) hpx Z
          (by rw [hb]; exact List.mem_cons_of_mem _ (List.mem_cons_self _ _))
        rw [List.map_cons, List.sum_cons, List.map_cons, List.sum_cons,
          List.map_cons, List.sum_cons, List.map_nil, List.sum_nil,
          List.map_cons, List.sum_cons, List.map_cons, List.sum_cons, hb]
        rw [← ihr]
        simp only [CFG.bodyWeight, CFG.tsv, hm, ho]
        rw [← hY, ← hZ]
        ring
    · rw [List.filter_cons_of_neg (by simpa using hpx)]
      by_cases hnp : (p.2.1.length = 2 ∨ p.2.1 = [GSym.geps])
      · rw [List.filter_cons_of_pos (by simpa using hnp),
          List.filter_cons_of_neg (by simpa using hpx)]
        exact ihr
      · rw [List.filter_cons_of_neg (by simpa using hnp)]
        exact ihr

theorem nullary_preserves (S : SR α) (hz : S.zero = 0) (ho : S.one = 1)
    (ha : ∀ a b : α, S.add a b = a + b) (hm : ∀ a b : α, S.mul a b = a * b)
    (G : CFG κ α) (ord : List Nat)
    (hbin : BinForm G) (hbu : BottomUp G ord) (hsep : StartSep G) :
    (CFG.nullaryremove S G ord).map (fun Gc => treesum S Gc ord)
      = .ok (treesum S G ord) := by
  obtain ⟨hN, hstart, hprod⟩ := hbu
  have hbG : ∀ p ∈ G.P, ∀ Y, GSym.nt Y ∈ p.2.1 →
      Y ∈ ord ∧ ord.indexOf Y < ord.indexOf p.1 := by
    intro p hp Y hY
    have h2 := ntsOk_mem (hprod p hp).2 hY
    rw [Bool.and_eq_true] at h2
    exact ⟨of_decide_eq_true h2.1, of_decide_eq_true h2.2⟩
  have hall : G.P.all (fun p => p.2.1.length = 1 ∨ p.2.1.length = 2) = true := by
    rw [List.all_eq_true]
    intro p hp
    simpa using binBody_len (hbin p hp)
  set G0 : CFG κ α :=
    { G with P := G.P.filter (fun p => p.2.1.length = 2 ∨ p.2.1 = [GSym.geps]) } with hG0
  set C0 : Dict Nat α := treesumChart S G0 ord with hC0
  set nl : (Nat × List (GSym κ) × α) → List (Nat × List (GSym κ) × α) := fun p =>
      match p.2.1 with
      | [Y, Z] =>
          [(p.1, [Y], S.mul p.2.2 (tsv S C0 Z)),
           (p.1, [Z], S.mul p.2.2 (tsv S C0 Y)),
           (p.1, [Y, Z], p.2.2)]
      | [x] => if x = GSym.geps then [] else [(p.1, [x], p.2.2)]
      | _ => [] with hnl
  set Gn : CFG κ α :=
    { G with P := G.P.flatMap nl
        ++ [(G.start, [GSym.geps], dget C0 G.start S.zero)] } with hGn
  have hok : CFG.nullaryremove S G ord = .ok Gn := by
    unfold CFG.nullaryremove
    rw [if_pos hall]
  rw [hok]
  show Except.ok (treesum S Gn ord) = Except.ok (treesum S G ord)
  apply congrArg
  have hnl_term : ∀ (p : Nat × List (GSym κ) × α) (a : κ), p.2.1 = [GSym.term a] →
      nl p = [(p.1, [GSym.term a], p.2.2)] := by
    intro p a hb
    rw [hnl]
    show (match p.2.1 with
      | [Y, Z] =>
          [(p.1, [Y], S.mul p.2.2 (tsv S C0 Z)),
           (p.1, [Z], S.mul p.2.2 (tsv S C0 Y)),
           (p.1, [Y, Z], p.2.2)]
      | [x] => if x = GSym.geps then [] else [(p.1, [x], p.2.2)]
      | _ => []) = _
    rw [hb]
    simp
  have hnl_geps : ∀ (p : Nat × List (GSym κ) × α), p.2.1 = [GSym.geps] →
      nl p = [] := by
    intro p hb
    rw [hnl]
    show (match p.2.1 with
      | [Y, Z] =>
          [(p.1, [Y], S.mul p.2.2 (tsv S C0 Z)),
           (p.1, [Z], S.mul p.2.2 (tsv S C0 Y)),
           (p.1, [Y, Z], p.2.2)]
      | [x] => if x = GSym.geps then [] else [(p.1, [x], p.2.2)]
      | _ => []) = _
    rw [hb]
    simp
  have hnl_bin : ∀ (p : Nat × List (GSym κ) × α) (Y Z : Nat),
      p.2.1 = [GSym.nt Y, GSym.nt Z] →
      nl p = [(p.1, [GSym.nt Y], S.mul p.2.2 (tsv S C0 (GSym.nt Z : GSym κ))),
              (p.1, [GSym.nt Z], S.mul p.2.2 (tsv S C0 (GSym.nt Y : GSym κ))),
              (p.1, [GSym.nt Y, GSym.nt Z], p.2.2)] := by
    intro p Y Z hb
    rw [hnl]
    show (match p.2.1 with
      | [Y, Z] =>
          [(p.1, [Y], S.mul p.2.2 (tsv S C0 Z)),
           (p.1, [Z], S.mul p.2.2 (tsv S C0 Y)),
           (p.1, [Y, Z], p.2.2)]
      | [x] => if x = GSym.geps then [] else [(p.1, [x], p.2.2)]
      | _ => []) = _
    rw [hb]
  have nl_heads : ∀ p ∈ G.P, ∀ q ∈ nl p, q.1 = p.1 := by
    intro p hp q hq
    rcases binBody_cases (hbin p hp) with ⟨a, hb⟩ | hb | ⟨Y, Z, hb⟩
    · rw [hnl_term p a hb, List.mem_singleton] at hq
      rw [hq]
    · rw [hnl_geps p hb] at hq
      cases hq
    · rw [hnl_bin p Y Z hb] at hq
      simp only [List.mem_cons, List.not_mem_nil, or_false] at hq
      rcases hq with hq | hq | hq <;> rw [hq]
  have hbG0 : ∀ p ∈ G0.P, ∀ Y, GSym.nt Y ∈ p.2.1 →
      Y ∈ ord ∧ ord.indexOf Y < ord.indexOf p.1 :=
    fun p hp Y hY => hbG p (List.mem_filter.mp hp).1 Y hY
  have hbGn : ∀ p ∈ Gn.P, ∀ Y, GSym.nt Y ∈ p.2.1 →
      Y ∈ ord ∧ ord.indexOf Y < ord.indexOf p.1 := by
    intro q hq W hW
    rcases List.mem_append.mp hq with hq | hq
    · rw [List.mem_flatMap] at hq
      obtain ⟨p, hp, hqp⟩ := hq
      rcases binBody_cases (hbin p hp) with ⟨a, hb⟩ | hb | ⟨Y, Z, hb⟩
      · rw [hnl_term p a hb, List.mem_singleton] at hqp
        rw [hqp] at hW
        simp at hW
      · rw [hnl_geps p hb] at hqp
        cases hqp
      · rw [hnl_bin p Y Z hb] at hqp
        simp only [List.mem_cons, List.not_mem_nil, or_false] at hqp
        have hYm : GSym.nt Y ∈ p.2.1 := by
          rw [hb]; exact List.mem_cons_self _ _
        have hZm : GSym.nt Z ∈ p.2.1 := by
          rw [hb]; exact List.mem_cons_of_mem _ (List.mem_cons_self _ _)
        rcases hqp with hqp | hqp | hqp
        · rw [hqp] at hW
          simp only [List.mem_singleton, GSym.nt.injEq] at hW
          rw [hqp, hW]
          exact hbG p hp Y hYm
        · rw [hqp] at hW
          simp only [List.mem_singleton, GSym.nt.injEq] at hW
          rw [hqp, hW]
          exact hbG p hp Z hZm
        · rw [hqp] at hW
          simp only [List.mem_cons, List.not_mem_nil, or_false, GSym.nt.injEq] at hW
          rcases hW with hW | hW
          · rw [hqp, hW]
            exact hbG p hp Y hYm
          · rw [hqp, hW]
            exact hbG p hp Z hZm
    · rw [List.mem_singleton] at hq
      rw [hq] at hW
      simp at hW
  have hstep : ∀ X ∈ ord,
      (∀ Y ∈ ord, ord.indexOf Y < ord.indexOf X →
        ((Y = G.start →
            dget (treesumChart S Gn ord) Y S.zero = dget (treesumChart S G ord) Y S.zero) ∧
         (Y ≠ G.start →
            dget (treesumChart S Gn ord) Y S.zero + dget (treesumChart S G0 ord) Y S.zero
              = dget (treesumChart S G ord) Y S.zero))) →
      ((X = G.start →
          headSum S Gn (treesumChart S Gn ord) X = headSum S G (treesumChart S G ord) X) ∧
       (X ≠ G.start →
          headSum S Gn (treesumChart S Gn ord) X + headSum S G0 (treesumChart S G0 ord) X
            = headSum S G (treesumChart S G ord) X)) := by
    intro X hX hIH
    have hvals : ∀ p ∈ G.P, p.1 = X → ∀ Y, GSym.nt Y ∈ p.2.1 →
        dget (treesumChart S Gn ord) Y S.zero + dget C0 Y S.zero
          = dget (treesumChart S G ord) Y S.zero := by
      intro p hp hpX Y hY
      obtain ⟨hYo, hYlt⟩ := hbG p hp Y hY
      rw [hpX] at hYlt
      have hYs : Y ≠ G.start := by
        intro he
        rw [he] at hY
        exact hsep p hp hY
      exact (hIH Y hYo hYlt).2 hYs
    have hsum := nullary_sum S hz ho ha hm C0 (treesumChart S Gn ord)
      (treesumChart S G ord) X G.P hbin hvals
    have hw0 : dget C0 G.start S.zero = headSum S G0 C0 G.start := by
      rw [hC0]
      refine chart_headEq S hz ha hm G0 ord hN G.start hstart ?_
      intro p hp hpX Y hY
      have h2 := hbG0 p hp Y hY
      rwa [hpX] at h2
    have hsingle : ∀ w : α,
        (([(G.start, [GSym.geps], w)] : List (Nat × List (GSym κ) × α)).map
          (fun p => p.2.2 * bodyWeight S (treesumChart S Gn ord) p.2.1)).sum
        = w := by
      intro w
      simp [CFG.bodyWeight, hm, ho]
    constructor
    · intro hXs
      rw [headSum_eq_sum S hz ha hm Gn (treesumChart S Gn ord) X,
        headSum_eq_sum S hz ha hm G (treesumChart S G ord) X]
      rw [show Gn.P = G.P.flatMap nl
        ++ [(G.start, [GSym.geps], dget C0 G.start S.zero)] from rfl]
      rw [List.filter_append, filter_flatMap_head nl X G.P nl_heads,
        List.map_append, List.sum_append]
      rw [List.filter_cons_of_pos (by simpa using hXs.symm), List.filter_nil]
      rw [hsingle]
      rw [hw0, headSum_eq_sum S hz ha hm G0 C0 G.start, ← hXs]
      rw [show G0.P = G.P.filter (fun p => p.2.1.length = 2 ∨ p.2.1 = [GSym.geps]) from rfl]
      rw [← hsum]
    · intro hXs
      rw [headSum_eq_sum S hz ha hm Gn (treesumChart S Gn ord) X,
        headSum_eq_sum S hz ha hm G (treesumChart S G ord) X,
        headSum_eq_sum S hz ha hm G0 (treesumChart S G0 ord) X]
      rw [show Gn.P = G.P.flatMap nl
        ++ [(G.start, [GSym.geps], dget C0 G.start S.zero)] from rfl]
      rw [List.filter_append, filter_flatMap_head nl X G.P nl_heads,
        List.map_append, List.sum_append]
      rw [List.filter_cons_of_neg (by simpa using fun h => hXs h.symm), List.filter_nil,
        List.map_nil, List.sum_nil, add_zero]
      rw [show G0.P = G.P.filter (fun p => p.2.1.length = 2 ∨ p.2.1 = [GSym.geps]) from rfl]
      rw [← hC0, ← hsum]
  have hrel := chart_rel3 S hz ha hm Gn G0 G ord hN hbGn hbG0 hbG
    (fun X a b c => (X = G.start → a = c) ∧ (X ≠ G.start → a + b = c)) hstep
  have hfin := (hrel G.start hstart).1 rfl
  unfold CFG.treesum
  exact hfin

theorem tuples_one (V : List Nat) : CFG.tuples V 1 = V.map (fun z => [z]) := by
  show V.flatMap (fun y => (CFG.tuples V 0).map (y :: ·)) = _
  exact flatMap_singleton_map V _

theorem tuples_two (V : List Nat) :
    CFG.tuples V 2 = V.flatMap (fun y => V.map (fun z => [y, z])) := by
  show V.flatMap (fun y => (CFG.tuples V 1).map (y :: ·)) = _
  rw [tuples_one]
  exact congrArg V.flatMap (funext fun y => by rw [List.map_map]; rfl)

theorem tuples_two_mem {V : List Nat} {Ys : List Nat} (h : Ys ∈ CFG.tuples V 2) :
    ∃ y z, Ys = [y, z] ∧ y ∈ V ∧ z ∈ V := by
  rw [tuples_two] at h
  rw [List.mem_flatMap] at h
  obtain ⟨y, hy, h⟩ := h
  rw [List.mem_map] at h
  obtain ⟨z, hz, he⟩ := h
  exact ⟨y, z, he.symm, hy, hz⟩

theorem tuples_two_mem_of (V : List Nat) {y z : Nat} (hy : y ∈ V) (hz : z ∈ V) :
    [y, z] ∈ CFG.tuples V 2 := by
  rw [tuples_two]
  exact List.mem_flatMap.mpr ⟨y, hy, List.mem_map.mpr ⟨z, hz, rfl⟩⟩

theorem tuples_two_nodup {V : List Nat} (hV : V.Nodup) : (CFG.tuples V 2).Nodup := by
  rw [tuples_two]
  refine nodup_flatMap_map V V (fun y z => [y, z]) hV hV ?_
  intro a a' b b' h
  rw [List.cons.injEq, List.cons.injEq] at h
  exact ⟨h.1, h.2.1⟩

theorem unary_preserves (S : SR α) (hz : S.zero = 0) (ho : S.one = 1)
    (ha : ∀ a b : α, S.add a b = a + b) (hm : ∀ a b : α, S.mul a b = a * b)
    (s0 : α) (hst : S.star 0 = some s0)
    (G : CFG κ α) (ord : List Nat)
    (hbin : BinForm G) (hbu : BottomUp G ord) (hV : G.V.Nodup) (hnv : NTsInV G) :
    (CFG.unaryremove S G).map (fun Gu => treesum S Gu ord) = .ok (treesum S G ord) := by
  obtain ⟨hN, hstart, hprod⟩ := hbu
  have hbG : ∀ p ∈ G.P, ∀ Y, GSym.nt Y ∈ p.2.1 →
      Y ∈ ord ∧ ord.indexOf Y < ord.indexOf p.1 := by
    intro p hp Y hY
    have h2 := ntsOk_mem (hprod p hp).2 hY
    rw [Bool.and_eq_true] at h2
    exact ⟨of_decide_eq_true h2.1, of_decide_eq_true h2.2⟩
  have hVG : ∀ p ∈ G.P, ∀ Y, GSym.nt Y ∈ p.2.1 → Y ∈ G.V :=
    fun p hp Y hY => of_decide_eq_true (ntsOk_mem (hnv p hp) hY)
  have hFu := make_unary_fsa_char S G hbin hV
  have hQN : (CFG.make_unary_fsa S G).Q.Nodup := by
    rw [hFu]
    show (G.V.map some ++ [none]).Nodup
    refine List.Nodup.append (List.Nodup.map (Option.some_injective _) hV)
      (List.nodup_singleton _) ?_
    intro x hx1 hx2
    rw [List.mem_map] at hx1
    obtain ⟨y, _, hy⟩ := hx1
    rw [List.mem_singleton] at hx2
    rw [hx2] at hy
    exact Option.noConfusion hy
  have hδ : (CFG.make_unary_fsa S G).δ = [] := by rw [hFu]
  obtain ⟨W, hW, hWval⟩ := lehmann_arcless S hz ho ha hm s0 hst
    (CFG.make_unary_fsa S G) hδ hQN
  have hQmem : ∀ y ∈ G.V, (some y : Option Nat) ∈ (CFG.make_unary_fsa S G).Q := by
    intro y hy
    rw [hFu]
    exact List.mem_append.mpr (.inl (List.mem_map.mpr ⟨y, hy, rfl⟩))
  have hWv : ∀ y Y : Nat, y ∈ G.V → Y ∈ G.V →
      dget W (some y, some Y) S.zero = if y = Y then (1 : α) else 0 := by
    intro y Y hy hY
    rw [hWval (some y) (hQmem y hy) (some Y) (hQmem Y hY)]
    by_cases h : y = Y
    · rw [if_pos (congrArg some h), if_pos h]
    · rw [if_neg (fun he => h (Option.some.inj he)), if_neg h]
  set ul : (Nat × List (GSym κ) × α) → List (Nat × List (GSym κ) × α) := fun p =>
    if 1 < p.2.1.length then
      let ntIdxs := ((p.2.1.enum.filter (fun ig => isNT ig.2)).map Prod.fst)
      let Xs := p.2.1.filterMap ntId
      (CFG.tuples G.V ntIdxs.length).filterMap (fun Ys =>
        let wnew := S.mul p.2.2 (prodW S W (Ys.zip Xs))
        if wnew = S.zero then none
        else some (p.1, substitute p.2.1 ntIdxs Ys, wnew))
    else
      match p.2.1 with
      | [GSym.term a] => [(p.1, [GSym.term a], p.2.2)]
      | [GSym.geps] => [(p.1, [GSym.geps], p.2.2)]
      | _ => [] with hul
  set Gu : CFG κ α := { G with P := G.P.flatMap ul } with hGu
  have hok : CFG.unaryremove S G = .ok Gu := by
    unfold CFG.unaryremove
    rw [hW]
    rfl
  rw [hok]
  show Except.ok (treesum S Gu ord) = Except.ok (treesum S G ord)
  apply congrArg
  have hul_term : ∀ (p : Nat × List (GSym κ) × α) (a : κ), p.2.1 = [GSym.term a] →
      ul p = [(p.1, [GSym.term a], p.2.2)] := by
    intro p a hb
    simp only [hul]
    rw [hb]
    rfl
  have hul_geps : ∀ (p : Nat × List (GSym κ) × α), p.2.1 = [GSym.geps] →
      ul p = [(p.1, [GSym.geps], p.2.2)] := by
    intro p hb
    simp only [hul]
    rw [hb]
    rfl
  have hul_bin : ∀ (p : Nat × List (GSym κ) × α) (Y Z : Nat),
      p.2.1 = [GSym.nt Y, GSym.nt Z] →
      ul p = (CFG.tuples G.V 2).filterMap (fun Ys =>
        if S.mul p.2.2 (prodW S W (Ys.zip [Y, Z])) = S.zero then none
        else some (p.1, CFG.substitute [GSym.nt Y, GSym.nt Z] [0, 1] Ys,
          S.mul p.2.2 (prodW S W (Ys.zip [Y, Z])))) := by
    intro p Y Z hb
    simp only [hul]
    rw [hb]
    rfl
  have hdropv : ∀ (w : α) (y z Y Z : Nat), y ∈ G.V → z ∈ G.V → Y ∈ G.V → Z ∈ G.V →
      (¬ (y = Y ∧ z = Z)) →
      S.mul w (prodW S W ([y, z].zip [Y, Z])) = S.zero := by
    intro w y z Y Z hym hzm hYm hZm hne
    show S.mul w (S.mul (S.mul S.one (dget W (some y, some Y) S.zero))
      (dget W (some z, some Z) S.zero)) = S.zero
    rw [hWv y Y hym hYm, hWv z Z hzm hZm, hm, hm, hm, ho, hz]
    by_cases hyY : y = Y
    · have hzZ : ¬ z = Z := fun h => hne ⟨hyY, h⟩
      rw [if_pos hyY, if_neg hzZ, mul_zero, mul_zero]
    · rw [if_neg hyY, mul_zero, zero_mul, mul_zero]
  have hkeepv : ∀ (w : α) (Y Z : Nat), Y ∈ G.V → Z ∈ G.V →
      S.mul w (prodW S W ([Y, Z].zip [Y, Z])) = w := by
    intro w Y Z hYm hZm
    show S.mul w (S.mul (S.mul S.one (dget W (some Y, some Y) S.zero))
      (dget W (some Z, some Z) S.zero)) = w
    rw [hWv Y Y hYm hYm, hWv Z Z hZm hZm, if_pos rfl, if_pos rfl, hm, hm, hm, ho]
    ring
  have ul_heads : ∀ p ∈ G.P, ∀ q ∈ ul p, q.1 = p.1 := by
    intro p hp q hq
    rcases binBody_cases (hbin p hp) with ⟨a, hb⟩ | hb | ⟨Y, Z, hb⟩
    · rw [hul_term p a hb, List.mem_singleton] at hq
      rw [hq]
    · rw [hul_geps p hb, List.mem_singleton] at hq
      rw [hq]
    · rw [hul_bin p Y Z hb] at hq
      rw [List.mem_filterMap] at hq
      obtain ⟨Ys, _, hsome⟩ := hq
      by_cases hw : S.mul p.2.2 (prodW S W (Ys.zip [Y, Z])) = S.zero
      · rw [if_pos hw] at hsome
        cases hsome
      · rw [if_neg hw] at hsome
        have hqe := Option.some.inj hsome
        rw [← hqe]
  have hbGu : ∀ q ∈ Gu.P, ∀ Wn, GSym.nt Wn ∈ q.2.1 →
      Wn ∈ ord ∧ ord.indexOf Wn < ord.indexOf q.1 := by
    intro q hq Wn hWn
    rcases List.mem_flatMap.mp hq with ⟨p, hp, hqp⟩
    rcases binBody_cases (hbin p hp) with ⟨a, hb⟩ | hb | ⟨Y, Z, hb⟩
    · rw [hul_term p a hb, List.mem_singleton] at hqp
      rw [hqp] at hWn
      simp at hWn
    · rw [hul_geps p hb, List.mem_singleton] at hqp
      rw [hqp] at hWn
      simp at hWn
    · rw [hul_bin p Y Z hb] at hqp
      rw [List.mem_filterMap] at hqp
      obtain ⟨Ys, hYs, hsome⟩ := hqp
      obtain ⟨y, z, rfl, hym, hzm⟩ := tuples_two_mem hYs
      have hYmem : GSym.nt Y ∈ p.2.1 := by rw [hb]; exact List.mem_cons_self _ _
      have hZmem : GSym.nt Z ∈ p.2.1 := by
        rw [hb]; exact List.mem_cons_of_mem _ (List.mem_cons_self _ _)
      by_cases hyz : y = Y ∧ z = Z
      · obtain ⟨rfl, rfl⟩ := hyz
        by_cases hw : S.mul p.2.2 (prodW S W ([y, z].zip [y, z])) = S.zero
        · rw [if_pos hw] at hsome
          cases hsome
        · rw [if_neg hw] at hsome
          have hqe := Option.some.inj hsome
          rw [← hqe] at hWn ⊢
          have hsub : CFG.substitute ([GSym.nt y, GSym.nt z] : List (GSym κ)) [0, 1] [y, z]
              = [GSym.nt y, GSym.nt z] := rfl
          rw [hsub] at hWn
          simp only [List.mem_cons, List.not_mem_nil, or_false, GSym.nt.injEq] at hWn
          rcases hWn with hWn | hWn
          · rw [hWn]
            exact hbG p hp y hYmem
          · rw [hWn]
            exact hbG p hp z hZmem
      · rw [if_pos (hdropv p.2.2 y z Y Z hym hzm (hVG p hp Y hYmem)
          (hVG p hp Z hZmem) hyz)] at hsome
        cases hsome
  have hstep : ∀ X ∈ ord,
      (∀ Y ∈ ord, ord.indexOf Y < ord.indexOf X →
        dget (treesumChart S Gu ord) Y S.zero = dget (treesumChart S G ord) Y S.zero) →
      headSum S Gu (treesumChart S Gu ord) X = headSum S G (treesumChart S G ord) X := by
    intro X hX hIH
    rw [headSum_eq_sum S hz ha hm Gu (treesumChart S Gu ord) X,
      headSum_eq_sum S hz ha hm G (treesumChart S G ord) X]
    rw [show Gu.P = G.P.flatMap ul from rfl]
    rw [filter_flatMap_head ul X G.P
      (fun p hp q hq => ul_heads p hp q hq)]
    rw [sum_map_flatMap]
    apply congrArg
    apply List.map_congr_left
    intro p hpf
    have hp : p ∈ G.P := (List.mem_filter.mp hpf).1
    have hpX : p.1 = X := by simpa using (List.mem_filter.mp hpf).2
    rcases binBody_cases (hbin p hp) with ⟨a, hb⟩ | hb | ⟨Y, Z, hb⟩
    · rw [hul_term p a hb, hb]
      simp [CFG.bodyWeight]
    · rw [hul_geps p hb, hb]
      simp [CFG.bodyWeight]
    · have hYmem : GSym.nt Y ∈ p.2.1 := by rw [hb]; exact List.mem_cons_self _ _
      have hZmem : GSym.nt Z ∈ p.2.1 := by
        rw [hb]; exact List.mem_cons_of_mem _ (List.mem_cons_self _ _)
      have hYV := hVG p hp Y hYmem
      have hZV := hVG p hp Z hZmem
      have hYIH : dget (treesumChart S Gu ord) Y S.zero
          = dget (treesumChart S G ord) Y S.zero := by
        obtain ⟨hYo, hYlt⟩ := hbG p hp Y hYmem
        rw [hpX] at hYlt
        exact hIH Y hYo hYlt
      have hZIH : dget (treesumChart S Gu ord) Z S.zero
          = dget (treesumChart S G ord) Z S.zero := by
        obtain ⟨hZo, hZlt⟩ := hbG p hp Z hZmem
        rw [hpX] at hZlt
        exact hIH Z hZo hZlt
      rw [hul_bin p Y Z hb, sum_map_filterMap]
      have hss := sum_single_nonzero (CFG.tuples G.V 2) (tuples_two_nodup hV)
        [Y, Z] (tuples_two_mem_of G.V hYV hZV)
        (fun Ys => ((if S.mul p.2.2 (prodW S W (Ys.zip [Y, Z])) = S.zero then none
            else some (p.1, CFG.substitute [GSym.nt Y, GSym.nt Z] [0, 1] Ys,
              S.mul p.2.2 (prodW S W (Ys.zip [Y, Z])))
            : Option (Nat × List (GSym κ) × α)).map
            (fun q => q.2.2 * bodyWeight S (treesumChart S Gu ord) q.2.1)).getD 0)
        ?_
      · rw [hb]
        refine Eq.trans hss ?_
        show ((if S.mul p.2.2 (prodW S W ([Y, Z].zip [Y, Z])) = S.zero then none
            else some (p.1, CFG.substitute [GSym.nt Y, GSym.nt Z] [0, 1] [Y, Z],
              S.mul p.2.2 (prodW S W ([Y, Z].zip [Y, Z])))
            : Option (Nat × List (GSym κ) × α)).map
            (fun q => q.2.2 * bodyWeight S (treesumChart S Gu ord) q.2.1)).getD 0
          = p.2.2 * bodyWeight S (treesumChart S G ord) [GSym.nt Y, GSym.nt Z]
        by_cases hw : S.mul p.2.2 (prodW S W ([Y, Z].zip [Y, Z])) = S.zero
        · rw [if_pos hw]
          have hp22 : p.2.2 = 0 := by
            rw [← hkeepv p.2.2 Y Z hYV hZV, hw, hz]
          rw [hp22, zero_mul]
          rfl
        · rw [if_neg hw]
          show S.mul p.2.2 (prodW S W ([Y, Z].zip [Y, Z]))
              * bodyWeight S (treesumChart S Gu ord)
                (CFG.substitute [GSym.nt Y, GSym.nt Z] [0, 1] [Y, Z])
            = p.2.2 * bodyWeight S (treesumChart S G ord) [GSym.nt Y, GSym.nt Z]
          rw [hkeepv p.2.2 Y Z hYV hZV,
            show CFG.substitute [GSym.nt Y, GSym.nt Z] [0, 1] [Y, Z]
              = [GSym.nt Y, GSym.nt Z] from rfl]
          apply congrArg
          refine bodyWeight_congr S _ _ [GSym.nt Y, GSym.nt Z] ?_
          intro Wn hWn
          simp only [List.mem_cons, List.not_mem_nil, or_false, GSym.nt.injEq] at hWn
          rcases hWn with hWn | hWn
          · rw [hWn]
            exact hYIH
          · rw [hWn]
            exact hZIH
      · intro Ys hYs hne
        obtain ⟨y, z, rfl, hym, hzm⟩ := tuples_two_mem hYs
        have hyz : ¬ (y = Y ∧ z = Z) := by
          intro hand
          exact hne (by rw [hand.1, hand.2])
        show ((if S.mul p.2.2 (prodW S W ([y, z].zip [Y, Z])) = S.zero then none
            else some (p.1, CFG.substitute [GSym.nt Y, GSym.nt Z] [0, 1] [y, z],
              S.mul p.2.2 (prodW S W ([y, z].zip [Y, Z])))
            : Option (Nat × List (GSym κ) × α)).map
            (fun q => q.2.2 * bodyWeight S (treesumChart S Gu ord) q.2.1)).getD 0 = (0 : α)
        rw [if_pos (hdropv p.2.2 y z Y Z hym hzm hYV hZV hyz)]
        rfl
  have hrel := chart_rel3 S hz ha hm Gu G G ord hN hbGu hbG hbG
    (fun _ a _ c => a = c)
    (fun X hX hIH => hstep X hX (fun Y hY hlt => hIH Y hY hlt))
  have hfin := hrel G.start hstart
  unfold CFG.treesum
  exact hfin

end CFGLemmas

/-- C7, counterexample: on the Real-semiring grammar `cexG` = {S → Y (weight
1), Y → ε (weight 1)} — whose treesum is 1 (the single derivation S ⇒ Y ⇒ ε)
— `nullaryremove` drops `Y → ε` but keeps the unary production `S → Y`
pointing at the now-unproductive `Y`, and restores only `S → ε` with weight
`T₀(S) = 0` (the nullary sub-grammar derives nothing from `S`), so the
returned grammar's treesum is 0 ≠ 1: the transform does not preserve the
treesum on grammars with unary productions. -/
theorem C7_counterexample :
    CFG.treesum IntSR cexG [1, 0] = 1 ∧
    (CFG.nullaryremove IntSR cexG [1, 0]).map (fun Gc => CFG.treesum IntSR Gc [1, 0])
      = .ok 0 := by
  decide

/-- C7, amended: over any commutative semiring (with `star 0` defined, as in
the Real semiring), on every grammar of the spec's CNF input class — bodies
are a single terminal, `ε`, or two nonterminals (no unary productions), the
nonterminals admit a duplicate-free bottom-up evaluation order containing the
start symbol, the start symbol occurs in no body, and body nonterminals come
from `V` — both `Transformer.nullaryremove` and `Transformer.unaryremove`
return grammars with the same treesum as the input. -/
theorem C7_amended {κ α : Type} [DecidableEq κ] [DecidableEq α] [CommSemiring α]
    (st iv : α → Option α) (idem sup : Bool) (s0 : α) (hst : st 0 = some s0)
    (G : CFG κ α) (ord : List Nat)
    (hbin : CFG.BinForm G) (hbu : CFG.BottomUp G ord) (hsep : CFG.StartSep G)
    (hV : G.V.Nodup) (hnv : CFG.NTsInV G) :
    (CFG.nullaryremove (SR.ofComm α st iv idem sup) G ord).map
        (fun Gc => CFG.treesum (SR.ofComm α st iv idem sup) Gc ord)
      = .ok (CFG.treesum (SR.ofComm α st iv idem sup) G ord) ∧
    (CFG.unaryremove (SR.ofComm α st iv idem sup) G).map
        (fun Gc => CFG.treesum (SR.ofComm α st iv idem sup) Gc ord)
      = .ok (CFG.treesum (SR.ofComm α st iv idem sup) G ord) :=
  ⟨nullary_preserves (SR.ofComm α st iv idem sup) rfl rfl (fun _ _ => rfl) (fun _ _ => rfl)
      G ord hbin hbu hsep,
   unary_preserves (SR.ofComm α st iv idem sup) rfl rfl (fun _ _ => rfl) (fun _ _ => rfl)
      s0 hst G ord hbin hbu hV hnv⟩

/-- C7, witness for the amended claim: the Real-semiring grammar `witG` =
{S → X Y (2), S → ε (5), X → x (1), X → ε (3), Y → y (2), Y → ε (4)} with the
bottom-up order [X, Y, S]; both transforms preserve its treesum (53). -/
theorem C7_witness :
    CFG.BinForm witG ∧ CFG.BottomUp witG [1, 2, 0] ∧ CFG.StartSep witG ∧
    witG.V.Nodup ∧ CFG.NTsInV witG ∧
    ((CFG.nullaryremove IntSR witG [1, 2, 0]).map
        (fun Gc => CFG.treesum IntSR Gc [1, 2, 0])
      = .ok (CFG.treesum IntSR witG [1, 2, 0]) ∧
     (CFG.unaryremove IntSR witG).map
        (fun Gc => CFG.treesum IntSR Gc [1, 2, 0])
      = .ok (CFG.treesum IntSR witG [1, 2, 0])) :=
  have hb1 : CFG.BinForm witG := by unfold CFG.BinForm; decide
  have hb2 : CFG.BottomUp witG [1, 2, 0] := by unfold CFG.BottomUp; decide
  have hb3 : CFG.StartSep witG := by unfold CFG.StartSep; decide
  have hb4 : witG.V.Nodup := by decide
  have hb5 : CFG.NTsInV witG := by unfold CFG.NTsInV; decide
  ⟨hb1, hb2, hb3, hb4, hb5,
    C7_amended intStar intInv false false 1 (by decide) witG [1, 2, 0] hb1 hb2 hb3 hb4 hb5⟩

end Rayuela
